import Mathlib

/-!
Verification of the medal-boundary algorithm library (`medalbound/algorithms.py`).

The embedding models Python integers as `ℤ`, exact rationals
(`fractions.Fraction`) as `ℚ`, boundary vectors with unresolved entries
(`None`) as `List (Option ℤ)`, and fallible computations as
`Except AlgError`.  Python runtime errors that are not one of the three
documented domain errors (TypeError on `None` arithmetic, IndexError,
ZeroDivisionError) are collapsed into the single constructor `runtimeErr`.
-/

deriving instance DecidableEq for Except

namespace Medalbound

/-- Error taxonomy of the algorithms module: length mismatch between
`known_bound` and `goal`, the bracket-finder's out-of-range error, the
score search's no-admissible-boundaries error, and a collapse of all other
Python runtime errors (TypeError / IndexError / ZeroDivisionError). -/
inductive AlgError where
  | shapeMismatch
  | outOfRange
  | noAdmissible
  | runtimeErr
deriving DecidableEq, Repr

/-- Auxiliary loop of `get_cum_alternatives`: the Python loop runs over
indexes `len-1, len-2, ..., 0`, i.e. over the reversed list, carrying the
accumulator `num_below` (initially `0`). -/
def getCumAltAux (ideal : ℚ) : List ℤ → ℤ → Option (ℤ × ℤ)
  | [], _ => none
  | c :: rest, numBelow =>
    let numBelow' := if (c : ℚ) ≤ ideal then c else numBelow
    if ideal ≤ (c : ℚ) then some (numBelow', c)
    else getCumAltAux ideal rest numBelow'

/-- `get_cum_alternatives(ideal_cum, cum_stats)`: scan `cum_stats` from the
last element towards the first, remembering the last value `≤ ideal` seen,
and return `(num_below, cum_stats[i])` at the first value `≥ ideal`;
raise the out-of-range `ValueError` if the scan completes. -/
def get_cum_alternatives (ideal_cum : ℚ) (cum_stats : List ℤ) :
    Except AlgError (ℤ × ℤ) :=
  match getCumAltAux ideal_cum cum_stats.reverse 0 with
  | some p => .ok p
  | none => .error .outOfRange

/-- `MarginAlgorithm.compute_boundaries(cum_stats, goal, known_bound)` for a
choice function `choice_fn(margin_below, margin_above)`.  Checks the length
of `known_bound` against `goal`, computes the ideal number of medals
`cum_stats[0] * (sum(goal) - goal[-1]) / sum(goal)`, brackets it, and
builds a fresh all-`None` result with position `-2` set to the chosen
bracket value and position `-1` set to the number of contestants. -/
def margin_compute_boundaries (choice_fn : ℚ → ℚ → Bool)
    (cum_stats goal : List ℤ) (known_bound : List (Option ℤ)) :
    Except AlgError (List (Option ℤ)) :=
  if known_bound.length ≠ goal.length then .error .shapeMismatch
  else
    match cum_stats, goal.getLast? with
    | [], _ => .error .runtimeErr
    | _, none => .error .runtimeErr
    | num_contestants :: _, some goal_last =>
      let goal_sum : ℤ := goal.sum
      if goal_sum = 0 then .error .runtimeErr
      else
        let goal_sum_medals : ℤ := goal_sum - goal_last
        let goal_medal_frac : ℚ := (goal_sum_medals : ℚ) / (goal_sum : ℚ)
        let goal_medal_ideal : ℚ := (num_contestants : ℚ) * goal_medal_frac
        match get_cum_alternatives goal_medal_ideal cum_stats with
        | .error e => .error e
        | .ok (num_below, num_above) =>
          let margin_below : ℚ := goal_medal_ideal - (num_below : ℚ)
          let margin_above : ℚ := (num_above : ℚ) - goal_medal_ideal
          let num_medals : ℤ :=
            if choice_fn margin_below margin_above then num_above
            else num_below
          if goal.length < 2 then .error .runtimeErr
          else
            let ret : List (Option ℤ) :=
              List.replicate goal.length (none : Option ℤ)
            .ok ((ret.set (goal.length - 2) (some num_medals)).set
                  (goal.length - 1) (some num_contestants))

/-- The choice function of `MarginAlgorithmLinear(num, den, strict_ineq)`:
go above iff `den * margin_below > num * margin_above`, or they are equal
and `strict_ineq` is unset. -/
def choose_linear (num den : ℤ) (strict_ineq : Bool)
    (margin_below margin_above : ℚ) : Bool :=
  if (den : ℚ) * margin_below > (num : ℚ) * margin_above then true
  else if (den : ℚ) * margin_below = (num : ℚ) * margin_above ∧
      ¬strict_ineq then true
  else false

/-- The choice function of `MarginAlgorithmQuadratic(num, den, strict_ineq)`:
identical to the linear rule with `margin_above` squared. -/
def choose_quadratic (num den : ℤ) (strict_ineq : Bool)
    (margin_below margin_above : ℚ) : Bool :=
  let margin_above_2 := margin_above * margin_above
  if (den : ℚ) * margin_below > (num : ℚ) * margin_above_2 then true
  else if (den : ℚ) * margin_below = (num : ℚ) * margin_above_2 ∧
      ¬strict_ineq then true
  else false

/-- One iteration of `MedalAlgorithmIndependent.compute_boundaries`'s loop:
the ideal for tier `i` is `num_medals * sum(goal[0:i+1]) / goal_sum_medals`,
bracketed in `cum_stats`; the endpoint with the smaller margin is stored at
position `i` (ties to `num_above`). -/
def independent_choice (cum_stats goal : List ℤ) (goal_sum_medals : ℤ)
    (num_medals? : Option ℤ) (i : ℕ) : Except AlgError ℤ :=
  let goal_sum_high : ℤ := (goal.take (i + 1)).sum
  if goal_sum_medals = 0 then .error .runtimeErr
  else
    match num_medals? with
    | none => .error .runtimeErr
    | some num_medals =>
      let goal_frac : ℚ := (goal_sum_high : ℚ) / (goal_sum_medals : ℚ)
      let goal_ideal : ℚ := (num_medals : ℚ) * goal_frac
      match get_cum_alternatives goal_ideal cum_stats with
      | .error e => .error e
      | .ok (num_below, num_above) =>
        let margin_below : ℚ := goal_ideal - (num_below : ℚ)
        let margin_above : ℚ := (num_above : ℚ) - goal_ideal
        .ok (if margin_above ≤ margin_below then num_above else num_below)

/-- The loop body then stores the chosen value at position `i`. -/
def independent_step (cum_stats goal : List ℤ) (goal_sum_medals : ℤ)
    (num_medals? : Option ℤ) (ret : List (Option ℤ)) (i : ℕ) :
    Except AlgError (List (Option ℤ)) :=
  match independent_choice cum_stats goal goal_sum_medals num_medals? i with
  | .error e => .error e
  | .ok v => .ok (ret.set i (some v))

/-- Run a per-tier step over a list of tier indexes, threading the evolving
boundary vector and propagating the first error (the Python `for` loops of
the two tier algorithms). -/
def run_steps (step : List (Option ℤ) → ℕ → Except AlgError (List (Option ℤ))) :
    List ℕ → List (Option ℤ) → Except AlgError (List (Option ℤ))
  | [], ret => .ok ret
  | i :: rest, ret =>
    match step ret i with
    | .error e => .error e
    | .ok ret' => run_steps step rest ret'

/-- `MedalAlgorithmIndependent.compute_boundaries`: after the length check,
read the already-known total medal count at position `-2` (Python would
raise a TypeError on `None` and an IndexError for fewer than two entries)
and resolve each tier `0 ≤ i < len(goal) - 2` independently. -/
def independent_compute_boundaries (cum_stats goal : List ℤ)
    (known_bound : List (Option ℤ)) : Except AlgError (List (Option ℤ)) :=
  if known_bound.length ≠ goal.length then .error .shapeMismatch
  else if goal.length < 2 then .error .runtimeErr
  else
    run_steps
      (independent_step cum_stats goal (goal.sum - goal.getLast!)
        (known_bound.getD (known_bound.length - 2) none))
      (List.range (goal.length - 2)) known_bound

/-- One iteration of `MedalAlgorithmLowestFirst.compute_boundaries`'s loop:
the ideal for tier `i` is the already-resolved boundary `ret[i+1]` scaled
by `sum(goal[0:i+1]) / sum(goal[0:i+2])`; the endpoint with the smaller
margin is stored at position `i` (ties to `num_above`). -/
def lowest_first_choice (cum_stats goal : List ℤ) (i : ℕ)
    (prev? : Option ℤ) : Except AlgError ℤ :=
  let goal_sum_num : ℤ := (goal.take (i + 1)).sum
  let goal_sum_den : ℤ := (goal.take (i + 2)).sum
  if goal_sum_den = 0 then .error .runtimeErr
  else
    match prev? with
    | none => .error .runtimeErr
    | some prev =>
      let goal_frac : ℚ := (goal_sum_num : ℚ) / (goal_sum_den : ℚ)
      let goal_ideal : ℚ := (prev : ℚ) * goal_frac
      match get_cum_alternatives goal_ideal cum_stats with
      | .error e => .error e
      | .ok (num_below, num_above) =>
        let margin_below : ℚ := goal_ideal - (num_below : ℚ)
        let margin_above : ℚ := (num_above : ℚ) - goal_ideal
        .ok (if margin_above ≤ margin_below then num_above else num_below)

/-- The loop body reads `ret[i+1]`, chooses, and stores at position `i`. -/
def lowest_first_step (cum_stats goal : List ℤ)
    (ret : List (Option ℤ)) (i : ℕ) : Except AlgError (List (Option ℤ)) :=
  match lowest_first_choice cum_stats goal i (ret.getD (i + 1) none) with
  | .error e => .error e
  | .ok v => .ok (ret.set i (some v))

/-- `MedalAlgorithmLowestFirst.compute_boundaries`: after the length check,
resolve tiers in the order `len(goal)-3, ..., 1, 0`, each one nested inside
the previously resolved boundary above it. -/
def lowest_first_compute_boundaries (cum_stats goal : List ℤ)
    (known_bound : List (Option ℤ)) : Except AlgError (List (Option ℤ)) :=
  if known_bound.length ≠ goal.length then .error .shapeMismatch
  else
    run_steps (lowest_first_step cum_stats goal)
      (List.range (goal.length - 2)).reverse known_bound

/-- Candidate values explored by `_search_by_score` at one position: the
Python loop walks `cum_stats` backwards and `break`s at the first value
exceeding `known_bound[pos+1]`. -/
def search_candidates (cum_stats : List ℤ) (bound : ℤ) : List ℤ :=
  cum_stats.reverse.takeWhile (fun c => decide (c ≤ bound))

/-- The best-candidate fold of `_search_by_score`: evaluate candidates in
order; adopt the first result, and replace the incumbent whenever a later
result's score is `≤` the incumbent's (so equal scores prefer later, i.e.
larger, candidates).  An empty candidate list with no incumbent raises the
no-admissible-boundaries `ValueError`. -/
def search_fold {σ : Type} [LinearOrder σ]
    (eval : ℤ → Except AlgError (σ × List (Option ℤ))) :
    List ℤ → Option (σ × List (Option ℤ)) →
    Except AlgError (σ × List (Option ℤ))
  | [], none => .error .noAdmissible
  | [], some best => .ok best
  | c :: rest, best =>
    match eval c with
    | .error e => .error e
    | .ok (new_score, new_bound) =>
      match best with
      | none => search_fold eval rest (some (new_score, new_bound))
      | some (best_score, best_bound) =>
        if new_score ≤ best_score then
          search_fold eval rest (some (new_score, new_bound))
        else
          search_fold eval rest (some (best_score, best_bound))

/-- `MedalAlgorithmScore._search_by_score(cum_stats, goal, known_bound, pos)`
(for non-negative `pos`): try every candidate `c ≤ known_bound[pos+1]` at
position `pos`; at `pos = 0` score the fully-resolved vector, otherwise
recurse to `pos - 1`.  A `None` at `known_bound[pos+1]` is Python's
TypeError on comparing an `int` with `None`. -/
def search_by_score {σ : Type} [LinearOrder σ]
    (score_fn : List ℤ → List (Option ℤ) → Except AlgError σ)
    (cum_stats goal : List ℤ) :
    ℕ → List (Option ℤ) → Except AlgError (σ × List (Option ℤ))
  | 0, known_bound =>
    match known_bound.getD 1 none with
    | none => .error .runtimeErr
    | some bound =>
      search_fold
        (fun c =>
          let rec_bound := known_bound.set 0 (some c)
          match score_fn goal rec_bound with
          | .error e => .error e
          | .ok s => .ok (s, rec_bound))
        (search_candidates cum_stats bound) none
  | pos + 1, known_bound =>
    match known_bound.getD (pos + 2) none with
    | none => .error .runtimeErr
    | some bound =>
      search_fold
        (fun c =>
          search_by_score score_fn cum_stats goal pos
            (known_bound.set (pos + 1) (some c)))
        (search_candidates cum_stats bound) none

/-- One term of the `MedalAlgorithmLp` score: the `p`-th power of the
absolute deviation of tier `i`'s count (`bounds[i]`, minus `bounds[i-1]`
for `i > 0`) from the ideal `bounds[-2]`-based count, with either the
actual count scaled by `goal_total / goal[i]` (`scale`) or the ideal
scaled by `goal[i] / goal_total`.  A `None` at an inspected position is
Python's TypeError; a zero scaling denominator is its ZeroDivisionError;
`bounds` shorter than 2 is its IndexError at `bounds[-2]`. -/
def score_lp_term (p : ℕ) (scale : Bool) (goal : List ℤ) (goal_total : ℤ)
    (bounds : List (Option ℤ)) (i : ℕ) : Except AlgError ℚ :=
  match bounds.getD i none with
  | none => .error .runtimeErr
  | some bi =>
    match (if i = 0 then some (0 : ℤ) else bounds.getD (i - 1) none) with
    | none => .error .runtimeErr
    | some bprev =>
      if bounds.length < 2 then .error .runtimeErr
      else
        match bounds.getD (bounds.length - 2) none with
        | none => .error .runtimeErr
        | some bideal =>
          let num_this : ℚ := ((bi - bprev : ℤ) : ℚ)
          let gi : ℤ := goal.getD i 0
          if scale then
            if gi = 0 then .error .runtimeErr
            else
              .ok (|num_this * ((goal_total : ℚ) / (gi : ℚ)) -
                    (bideal : ℚ)| ^ p)
          else
            if goal_total = 0 then .error .runtimeErr
            else
              .ok (|num_this -
                    (bideal : ℚ) * ((gi : ℚ) / (goal_total : ℚ))| ^ p)

/-- The `score_lp` scoring function of `MedalAlgorithmLp(p, scale)`: the sum
of the per-tier deviation terms over tiers `0 ≤ i < len(goal) - 1`. -/
def score_lp (p : ℕ) (scale : Bool) (goal : List ℤ)
    (bounds : List (Option ℤ)) : Except AlgError ℚ :=
  let n := goal.length - 1
  let goal_total : ℤ := (goal.take n).sum
  (List.range n).foldlM
    (fun acc i =>
      match score_lp_term p scale goal goal_total bounds i with
      | .error e => .error e
      | .ok t => .ok (acc + t))
    (0 : ℚ)

/-- First loop of `score_ratio`: compute the per-tier counts
`bounds[i] - bounds[i-1]` in index order; result `none` is the early
`return (1, 0)` taken at the first tier whose count is zero.  A `None` at
an inspected position is modelled as an immediate error (the Python code
invoked from the search only ever reaches well-resolved positions). -/
def ratio_nums (bounds : List (Option ℤ)) :
    List ℕ → Except AlgError (Option (List ℤ))
  | [] => .ok (some [])
  | i :: rest =>
    match bounds.getD i none with
    | none => .error .runtimeErr
    | some bi =>
      match (if i = 0 then some (0 : ℤ) else bounds.getD (i - 1) none) with
      | none => .error .runtimeErr
      | some bprev =>
        let num_this := bi - bprev
        if num_this = 0 then .ok none
        else
          match ratio_nums bounds rest with
          | .error e => .error e
          | .ok none => .ok none
          | .ok (some l) => .ok (some (num_this :: l))

/-- Second loop of `score_ratio`: sum the scaled ratios
`(nums[i]/nums[j]) / (goal[i]/goal[j])` over ordered pairs `i ≠ j`; a zero
goal entry is Python's ZeroDivisionError in `Fraction` construction or
division. -/
def score_ratio_sum (goal nums : List ℤ) (n : ℕ) : Except AlgError ℚ :=
  (List.range n).foldlM
    (fun acc i =>
      (List.range n).foldlM
        (fun acc2 j =>
          if i = j then .ok acc2
          else if goal.getD j 0 = 0 then .error .runtimeErr
          else if goal.getD i 0 = 0 then .error .runtimeErr
          else
            .ok (acc2 + ((nums.getD i 0 : ℚ) / (nums.getD j 0 : ℚ)) /
                ((goal.getD i 0 : ℚ) / (goal.getD j 0 : ℚ))))
        acc)
    (0 : ℚ)

/-- The `score_ratio` scoring function of `MedalAlgorithmRatio`: the Python
pair `(1, 0)` for an assignment with a zero-count tier, `(0, score)`
otherwise, compared lexicographically (Python tuple order). -/
def score_ratio (goal : List ℤ) (bounds : List (Option ℤ)) :
    Except AlgError (Lex (ℤ × ℚ)) :=
  let n := goal.length - 1
  match ratio_nums bounds (List.range n) with
  | .error e => .error e
  | .ok none => .ok (toLex (1, 0))
  | .ok (some nums) =>
    match score_ratio_sum goal nums n with
    | .error e => .error e
    | .ok s => .ok (toLex (0, s))

/-- `MedalAlgorithmScore.compute_boundaries`: length check, then search from
position `len(known_bound) - 3` inwards.  For `len(goal) < 3` the Python
recursion is entered with a negative position and always ends in some
runtime error (IndexError / TypeError / ValueError) before returning. -/
def score_compute_boundaries {σ : Type} [LinearOrder σ]
    (score_fn : List ℤ → List (Option ℤ) → Except AlgError σ)
    (cum_stats goal : List ℤ) (known_bound : List (Option ℤ)) :
    Except AlgError (List (Option ℤ)) :=
  if known_bound.length ≠ goal.length then .error .shapeMismatch
  else if known_bound.length < 3 then .error .runtimeErr
  else
    match search_by_score score_fn cum_stats goal (known_bound.length - 3)
        known_bound with
    | .error e => .error e
    | .ok (_, ret) => .ok ret

/-! ## Lemmas about the bracket finder -/

lemma getCumAltAux_eq_none_iff (ideal : ℚ) :
    ∀ (l : List ℤ) (nb : ℤ),
      getCumAltAux ideal l nb = none ↔ ∀ x ∈ l, (x : ℚ) < ideal := by
  intro l
  induction l with
  | nil => simp [getCumAltAux]
  | cons c rest ih =>
    intro nb
    simp only [getCumAltAux]
    by_cases h : ideal ≤ (c : ℚ)
    · simp only [if_pos h]
      constructor
      · intro hcontra
        exact absurd hcontra (by simp)
      · intro hall
        exact absurd (hall c (by simp)) (not_lt.mpr h)
    · simp only [if_neg h, ih]
      constructor
      · intro hall x hx
        rcases List.mem_cons.mp hx with rfl | hx'
        · exact lt_of_not_le h
        · exact hall x hx'
      · intro hall x hx
        exact hall x (List.mem_cons_of_mem _ hx)

lemma getCumAltAux_eq_some (ideal : ℚ) :
    ∀ (l : List ℤ) (nb b a : ℤ),
      getCumAltAux ideal l nb = some (b, a) →
      a ∈ l ∧ ideal ≤ (a : ℚ) ∧ ((b ∈ l ∧ (b : ℚ) ≤ ideal) ∨ b = nb) := by
  intro l
  induction l with
  | nil => intro nb b a h; simp [getCumAltAux] at h
  | cons c rest ih =>
    intro nb b a h
    simp only [getCumAltAux] at h
    by_cases hc : ideal ≤ (c : ℚ)
    · rw [if_pos hc] at h
      obtain ⟨hb, ha⟩ : (if (c : ℚ) ≤ ideal then c else nb) = b ∧ c = a := by
        have := Option.some.inj h
        exact ⟨congrArg Prod.fst this, congrArg Prod.snd this⟩
      subst ha
      refine ⟨by simp, hc, ?_⟩
      by_cases hle : (c : ℚ) ≤ ideal
      · rw [if_pos hle] at hb
        exact Or.inl ⟨by simp [← hb], by rw [← hb]; exact hle⟩
      · rw [if_neg hle] at hb
        exact Or.inr hb.symm
    · rw [if_neg hc] at h
      obtain ⟨ha, hai, hb⟩ := ih _ b a h
      refine ⟨List.mem_cons_of_mem _ ha, hai, ?_⟩
      rcases hb with ⟨hbm, hbi⟩ | hbe
      · exact Or.inl ⟨List.mem_cons_of_mem _ hbm, hbi⟩
      · by_cases hle : (c : ℚ) ≤ ideal
        · rw [if_pos hle] at hbe
          subst hbe
          exact Or.inl ⟨by simp, hle⟩
        · rw [if_neg hle] at hbe
          exact Or.inr hbe

/-- On a non-decreasing scan list, the returned `a` is the least value
`≥ ideal` and (when some value `≤ ideal` exists) the returned `b` is the
greatest value `≤ ideal`. -/
lemma getCumAltAux_sorted (ideal : ℚ) :
    ∀ (l : List ℤ) (nb b a : ℤ), l.Pairwise (· ≤ ·) →
      getCumAltAux ideal l nb = some (b, a) →
      (∀ x ∈ l, ideal ≤ (x : ℚ) → a ≤ x) ∧
      ((∃ x ∈ l, (x : ℚ) ≤ ideal) →
        b ∈ l ∧ (b : ℚ) ≤ ideal ∧ ∀ x ∈ l, (x : ℚ) ≤ ideal → x ≤ b) := by
  intro l
  induction l with
  | nil => intro nb b a _ h; simp [getCumAltAux] at h
  | cons c rest ih =>
    intro nb b a hsorted h
    have hpw := List.pairwise_cons.mp hsorted
    simp only [getCumAltAux] at h
    by_cases hc : ideal ≤ (c : ℚ)
    · rw [if_pos hc] at h
      obtain ⟨hb, ha⟩ : (if (c : ℚ) ≤ ideal then c else nb) = b ∧ c = a := by
        have := Option.some.inj h
        exact ⟨congrArg Prod.fst this, congrArg Prod.snd this⟩
      subst ha
      constructor
      · intro x hx _
        rcases List.mem_cons.mp hx with rfl | hx'
        · exact le_refl x
        · exact hpw.1 x hx'
      · intro ⟨x, hx, hxle⟩
        have hcx : (c : ℚ) ≤ ideal := by
          rcases List.mem_cons.mp hx with rfl | hx'
          · exact hxle
          · calc (c : ℚ) ≤ (x : ℚ) := by exact_mod_cast hpw.1 x hx'
              _ ≤ ideal := hxle
        rw [if_pos hcx] at hb
        subst hb
        refine ⟨by simp, hcx, ?_⟩
        intro y hy hyle
        rcases List.mem_cons.mp hy with rfl | hy'
        · exact le_refl y
        · -- y ∈ rest with y ≤ ideal ≤ c, so y ≤ c
          have : (y : ℚ) ≤ (c : ℚ) := le_trans hyle hc
          exact_mod_cast this
    · rw [if_neg hc] at h
      have hclt : (c : ℚ) < ideal := lt_of_not_le hc
      have hcle : (c : ℚ) ≤ ideal := le_of_lt hclt
      rw [if_pos hcle] at h
      obtain ⟨hmin, hmax⟩ := ih c b a hpw.2 h
      obtain ⟨ha, hai, hbor⟩ := getCumAltAux_eq_some ideal rest c b a h
      constructor
      · intro x hx hxi
        rcases List.mem_cons.mp hx with rfl | hx'
        · exact absurd hxi (not_le.mpr hclt)
        · exact hmin x hx' hxi
      · intro _
        by_cases hex : ∃ x ∈ rest, (x : ℚ) ≤ ideal
        · obtain ⟨hbm, hbi, hbmax⟩ := hmax hex
          refine ⟨List.mem_cons_of_mem _ hbm, hbi, ?_⟩
          intro y hy hyle
          rcases List.mem_cons.mp hy with rfl | hy'
          · exact le_trans (hpw.1 b hbm) (le_refl b)
          · exact hbmax y hy' hyle
        · -- no element of rest is ≤ ideal, so b must be the accumulator c
          have hbe : b = c := by
            rcases hbor with ⟨hbm, hbi⟩ | hbe
            · exact absurd ⟨b, hbm, hbi⟩ hex
            · exact hbe
          subst hbe
          refine ⟨by simp, hcle, ?_⟩
          intro y hy hyle
          rcases List.mem_cons.mp hy with rfl | hy'
          · exact le_refl y
          · exact absurd ⟨y, hy', hyle⟩ hex

/-- C1: for every non-increasing integer sequence `S` and exact rational
`r` with `min(S) ≤ r ≤ max(S)`, `get_cum_alternatives(r, S)` returns a pair
`(b, a)` with `b, a ∈ S`, `b ≤ r ≤ a`, `b` the greatest value of `S` that
is `≤ r` and `a` the least value of `S` that is `≥ r`; and when `r`
exceeds every value of `S` it raises the out-of-range error. -/
theorem get_cum_alternatives_bracket_contract (S : List ℤ) (r : ℚ)
    (hsorted : S.Pairwise (· ≥ ·)) :
    ((∃ x ∈ S, (x : ℚ) ≤ r) → (∃ x ∈ S, r ≤ (x : ℚ)) →
      ∃ b a, get_cum_alternatives r S = .ok (b, a) ∧
        b ∈ S ∧ a ∈ S ∧ (b : ℚ) ≤ r ∧ r ≤ (a : ℚ) ∧
        (∀ x ∈ S, (x : ℚ) ≤ r → x ≤ b) ∧
        (∀ x ∈ S, r ≤ (x : ℚ) → a ≤ x)) ∧
    ((∀ x ∈ S, (x : ℚ) < r) →
      get_cum_alternatives r S = .error .outOfRange) := by
  have hrev : S.reverse.Pairwise (· ≤ ·) := by
    rw [List.pairwise_reverse]
    exact hsorted
  constructor
  · intro hlo hhi
    obtain ⟨xl, hxl, hxlle⟩ := hlo
    obtain ⟨xh, hxh, hxhle⟩ := hhi
    have hnotall : ¬(∀ x ∈ S.reverse, (x : ℚ) < r) := by
      intro hall
      exact absurd (hall xh (List.mem_reverse.mpr hxh)) (not_lt.mpr hxhle)
    rcases haux : getCumAltAux r S.reverse 0 with _ | ⟨b, a⟩
    · exact absurd ((getCumAltAux_eq_none_iff r S.reverse 0).mp haux) hnotall
    · obtain ⟨ham, hai, _⟩ := getCumAltAux_eq_some r S.reverse 0 b a haux
      obtain ⟨hamin, hbmax⟩ := getCumAltAux_sorted r S.reverse 0 b a hrev haux
      obtain ⟨hbm, hbi, hbmaxall⟩ :=
        hbmax ⟨xl, List.mem_reverse.mpr hxl, hxlle⟩
      refine ⟨b, a, ?_, List.mem_reverse.mp hbm, List.mem_reverse.mp ham,
        hbi, hai, ?_, ?_⟩
      · simp only [get_cum_alternatives, haux]
      · intro x hx hxle
        exact hbmaxall x (List.mem_reverse.mpr hx) hxle
      · intro x hx hxle
        exact hamin x (List.mem_reverse.mpr hx) hxle
  · intro hall
    have : getCumAltAux r S.reverse 0 = none := by
      rw [getCumAltAux_eq_none_iff]
      intro x hx
      exact hall x (List.mem_reverse.mp hx)
    simp only [get_cum_alternatives, this]

/-- Closed instance of C1 on the spec's concrete scenario. -/
theorem get_cum_alternatives_bracket_contract_witness :
    ∃ b a, get_cum_alternatives 5 [10, 10, 9, 7, 4, 2, 0] = .ok (b, a) ∧
      b ∈ ([10, 10, 9, 7, 4, 2, 0] : List ℤ) ∧
      a ∈ ([10, 10, 9, 7, 4, 2, 0] : List ℤ) ∧
      (b : ℚ) ≤ 5 ∧ 5 ≤ (a : ℚ) ∧
      (∀ x ∈ ([10, 10, 9, 7, 4, 2, 0] : List ℤ), (x : ℚ) ≤ 5 → x ≤ b) ∧
      (∀ x ∈ ([10, 10, 9, 7, 4, 2, 0] : List ℤ), 5 ≤ (x : ℚ) → a ≤ x) :=
  (get_cum_alternatives_bracket_contract [10, 10, 9, 7, 4, 2, 0] 5
      (by decide)).1
    ⟨4, by decide, by norm_num⟩ ⟨7, by decide, by norm_num⟩

/-! ## List utilities -/

lemma getD_set_self {α : Type} (l : List α) (i : ℕ) (v d : α)
    (h : i < l.length) : (l.set i v).getD i d = v := by
  simp [List.getD_eq_getElem?_getD, List.getElem?_set_self', h]

lemma getD_set_ne {α : Type} (l : List α) {i j : ℕ} (v d : α) (h : i ≠ j) :
    (l.set i v).getD j d = l.getD j d := by
  simp [List.getD_eq_getElem?_getD, List.getElem?_set_ne h]

lemma getD_replicate {α : Type} (n j : ℕ) (c d : α) :
    (List.replicate n c).getD j d = if j < n then c else d := by
  by_cases h : j < n
  · simp [List.getD_eq_getElem?_getD, List.getElem?_replicate, h]
  · rw [List.getD_eq_getElem?_getD,
      List.getElem?_eq_none (l := List.replicate n c)
        (by simpa using not_lt.mp h)]
    simp [h]

/-! ## Characterization of the margin algorithms -/

/-- The ideal total medal count computed by `MarginAlgorithm`:
`cum_stats[0] * (sum(goal) - goal[-1]) / sum(goal)`. -/
def margin_goal_ideal (goal : List ℤ) (nc : ℤ) : ℚ :=
  (nc : ℚ) * (((goal.sum - goal.getLast?.getD 0 : ℤ) : ℚ) /
    ((goal.sum : ℤ) : ℚ))

/-- The boundary vector built by `MarginAlgorithm`: all-`None` except the
medal total at position `-2` and the contestant count at position `-1`. -/
def margin_ret (goal : List ℤ) (nc nm : ℤ) : List (Option ℤ) :=
  ((List.replicate goal.length (none : Option ℤ)).set
    (goal.length - 2) (some nm)).set (goal.length - 1) (some nc)

lemma margin_compute_eq_ok (cf : ℚ → ℚ → Bool) (nc : ℤ) (cs' goal : List ℤ)
    (kb : List (Option ℤ)) (hlen : kb.length = goal.length)
    (hglen : 2 ≤ goal.length) (hgsum : goal.sum ≠ 0) (nb na : ℤ)
    (hbr : get_cum_alternatives (margin_goal_ideal goal nc) (nc :: cs') =
      .ok (nb, na)) :
    margin_compute_boundaries cf (nc :: cs') goal kb =
      .ok (margin_ret goal nc
        (if cf (margin_goal_ideal goal nc - (nb : ℚ))
            ((na : ℚ) - margin_goal_ideal goal nc)
          then na else nb)) := by
  have hgne : goal ≠ [] := by
    intro h
    rw [h] at hglen
    simp at hglen
  have hlast : goal.getLast? = some (goal.getLast hgne) :=
    List.getLast?_eq_getLast goal hgne
  have hideal : (nc : ℚ) * (((goal.sum - goal.getLast hgne : ℤ) : ℚ) /
      ((goal.sum : ℤ) : ℚ)) = margin_goal_ideal goal nc := by
    simp [margin_goal_ideal, hlast]
  simp only [margin_compute_boundaries, hlast]
  rw [if_neg (by simp [hlen]), if_neg hgsum]
  simp only [hideal, hbr]
  rw [if_neg (by omega)]
  rfl

lemma take_sum_eq_sum_sub_getLast (goal : List ℤ) (h : goal ≠ []) :
    (goal.take (goal.length - 1)).sum = goal.sum - goal.getLast?.getD 0 := by
  have hsplit : goal.dropLast ++ [goal.getLast h] = goal :=
    List.dropLast_append_getLast h
  have hlast : goal.getLast? = some (goal.getLast h) :=
    List.getLast?_eq_getLast goal h
  have hsum : goal.sum = goal.dropLast.sum + goal.getLast h := by
    conv_lhs => rw [← hsplit]
    rw [List.sum_append]
    simp
  rw [← List.dropLast_eq_take, hsum, hlast]
  simp

/-- On success, the bracket endpoints satisfy `num_below ≤ ideal ≤
num_above` (given `0 ≤ ideal`), `num_above` occurs in the sequence and
`num_below` occurs in the sequence or is the initial accumulator `0`. -/
lemma get_cum_alternatives_ok_bounds (ideal : ℚ) (cs : List ℤ) (nb na : ℤ)
    (hpos : 0 ≤ ideal)
    (h : get_cum_alternatives ideal cs = .ok (nb, na)) :
    (nb : ℚ) ≤ ideal ∧ ideal ≤ (na : ℚ) ∧ na ∈ cs ∧ (nb ∈ cs ∨ nb = 0) := by
  have haux : getCumAltAux ideal cs.reverse 0 = some (nb, na) := by
    revert h
    unfold get_cum_alternatives
    rcases getCumAltAux ideal cs.reverse 0 with _ | p
    · intro h
      exact absurd h (by simp)
    · intro h
      have := Except.ok.inj h
      rw [this]
  obtain ⟨ham, hai, hbor⟩ := getCumAltAux_eq_some ideal cs.reverse 0 nb na haux
  refine ⟨?_, hai, List.mem_reverse.mp ham, ?_⟩
  · rcases hbor with ⟨_, hble⟩ | hbe
    · exact hble
    · rw [hbe]
      simpa using hpos
  · rcases hbor with ⟨hbm, _⟩ | hbe
    · exact Or.inl (List.mem_reverse.mp hbm)
    · exact Or.inr hbe

lemma margin_ret_length (goal : List ℤ) (nc nm : ℤ) :
    (margin_ret goal nc nm).length = goal.length := by
  simp [margin_ret]

lemma margin_ret_getD_medal (goal : List ℤ) (nc nm : ℤ)
    (h : 2 ≤ goal.length) :
    (margin_ret goal nc nm).getD (goal.length - 2) none = some nm := by
  unfold margin_ret
  rw [getD_set_ne _ _ _ (by omega), getD_set_self]
  simpa using (by omega : goal.length - 2 < goal.length)

lemma margin_ret_getD_last (goal : List ℤ) (nc nm : ℤ)
    (h : 2 ≤ goal.length) :
    (margin_ret goal nc nm).getD (goal.length - 1) none = some nc := by
  unfold margin_ret
  rw [getD_set_self]
  simpa using (by omega : goal.length - 1 < goal.length)

lemma margin_ret_getD_other (goal : List ℤ) (nc nm : ℤ) (j : ℕ)
    (hj2 : j ≠ goal.length - 2) (hj1 : j ≠ goal.length - 1) :
    (margin_ret goal nc nm).getD j none = none := by
  unfold margin_ret
  rw [getD_set_ne _ _ _ (Ne.symm hj1), getD_set_ne _ _ _ (Ne.symm hj2),
    getD_replicate]
  simp

lemma choose_linear_eq_true_iff (num den : ℤ) (strict : Bool) (mb ma : ℚ) :
    choose_linear num den strict mb ma = true ↔
      ((den : ℚ) * mb > (num : ℚ) * ma ∨
        ((den : ℚ) * mb = (num : ℚ) * ma ∧ strict = false)) := by
  unfold choose_linear
  split_ifs with h1 h2
  · simp [h1]
  · constructor
    · intro _
      exact Or.inr ⟨h2.1, by simpa using h2.2⟩
    · intro _
      rfl
  · constructor
    · intro h
      exact absurd h (by simp)
    · intro hor
      rcases hor with hgt | ⟨heq, hs⟩
      · exact absurd hgt h1
      · exact absurd ⟨heq, by simp [hs]⟩ h2

/-- C2: `MarginAlgorithmLinear(num, den, strict)` computes the ideal award
count `num_contestants * sum(goal[0..T-1]) / sum(goal)`, brackets it as
`(num_below, num_above)`, and sets position `T-1` to `num_above` exactly
when `den·margin_below > num·margin_above`, or they are equal and `strict`
is false; otherwise to `num_below`. -/
theorem margin_linear_choice_rule (num den : ℤ) (strict : Bool) (nc : ℤ)
    (cs' goal : List ℤ) (kb : List (Option ℤ)) (ideal : ℚ)
    (hlen : kb.length = goal.length) (hglen : 2 ≤ goal.length)
    (hgsum : goal.sum ≠ 0)
    (hideal : ideal = (nc : ℚ) * (((goal.take (goal.length - 1)).sum : ℤ) : ℚ) /
      ((goal.sum : ℤ) : ℚ))
    (nb na : ℤ)
    (hbr : get_cum_alternatives ideal (nc :: cs') = .ok (nb, na)) :
    ∃ ret,
      margin_compute_boundaries (choose_linear num den strict) (nc :: cs')
        goal kb = .ok ret ∧
      ret.getD (goal.length - 2) none = some
        (if (den : ℚ) * (ideal - (nb : ℚ)) > (num : ℚ) * ((na : ℚ) - ideal) ∨
            ((den : ℚ) * (ideal - (nb : ℚ)) =
              (num : ℚ) * ((na : ℚ) - ideal) ∧ strict = false)
         then na else nb) := by
  have hgne : goal ≠ [] := by
    intro h
    rw [h] at hglen
    simp at hglen
  have hie : ideal = margin_goal_ideal goal nc := by
    rw [hideal, margin_goal_ideal, ← take_sum_eq_sum_sub_getLast goal hgne,
      mul_div_assoc]
  rw [hie] at hbr
  refine ⟨_, margin_compute_eq_ok (choose_linear num den strict) nc cs' goal
    kb hlen hglen hgsum nb na hbr, ?_⟩
  rw [margin_ret_getD_medal goal nc _ hglen, ← hie]
  simp only [choose_linear_eq_true_iff]

/-- Closed instance of C2 on the spec's concrete scenario (the bracket of
the ideal 5 is `(4, 7)` and the rule selects `4`). -/
theorem margin_linear_choice_rule_witness :
    ∃ ret,
      margin_compute_boundaries (choose_linear 1 1 false)
        [10, 10, 9, 7, 4, 2, 0] [1, 2, 3, 6] [none, none, none, none] =
        .ok ret ∧
      ret.getD (([1, 2, 3, 6] : List ℤ).length - 2) none = some
        (if (1 : ℚ) * ((5 : ℚ) - ((4 : ℤ) : ℚ)) >
              (1 : ℚ) * (((7 : ℤ) : ℚ) - (5 : ℚ)) ∨
            ((1 : ℚ) * ((5 : ℚ) - ((4 : ℤ) : ℚ)) =
              (1 : ℚ) * (((7 : ℤ) : ℚ) - (5 : ℚ)) ∧ false = false)
         then (7 : ℤ) else (4 : ℤ)) :=
  margin_linear_choice_rule 1 1 false 10 [10, 9, 7, 4, 2, 0] [1, 2, 3, 6]
    [none, none, none, none] 5 (by decide) (by decide) (by decide)
    (by with_unfolding_all decide) 4 7 (by with_unfolding_all decide)

/-- C3 counterexample: a `MarginAlgorithm` does not copy the other
positions of `known_boundaries` into the result; an input with `some 1` at
position 0 yields `none` there. -/
theorem margin_frame_counterexample :
    margin_compute_boundaries (choose_linear 1 1 false)
      [10, 10, 9, 7, 4, 2, 0] [1, 2, 3, 6]
      [some 1, none, some 4, none] =
      .ok [none, none, some 4, some 10] ∧
    ([none, none, some 4, some 10] : List (Option ℤ)).getD 0 none ≠
      ([some 1, none, some 4, none] : List (Option ℤ)).getD 0 none := by
  constructor
  · with_unfolding_all decide
  · decide

/-- C3 amended: for every `MarginAlgorithm` (any choice function, covering
Linear and Quadratic) on a valid input, the result has position `T-1` set
to the chosen bracket value, position `T` set to the total contestant
count, and every other position set to `none` (unresolved), regardless of
the contents of the input `known_boundaries`. -/
theorem margin_frame_condition (cf : ℚ → ℚ → Bool) (nc : ℤ)
    (cs' goal : List ℤ) (kb : List (Option ℤ))
    (hlen : kb.length = goal.length) (hglen : 2 ≤ goal.length)
    (hgsum : goal.sum ≠ 0) (nb na : ℤ)
    (hbr : get_cum_alternatives (margin_goal_ideal goal nc) (nc :: cs') =
      .ok (nb, na)) :
    ∃ ret,
      margin_compute_boundaries cf (nc :: cs') goal kb = .ok ret ∧
      ret.length = goal.length ∧
      ret.getD (goal.length - 2) none = some
        (if cf (margin_goal_ideal goal nc - (nb : ℚ))
            ((na : ℚ) - margin_goal_ideal goal nc) then na else nb) ∧
      ret.getD (goal.length - 1) none = some nc ∧
      ∀ j, j ≠ goal.length - 2 → j ≠ goal.length - 1 →
        ret.getD j none = none := by
  refine ⟨_, margin_compute_eq_ok cf nc cs' goal kb hlen hglen hgsum nb na
    hbr, margin_ret_length goal nc _,
    margin_ret_getD_medal goal nc _ hglen,
    margin_ret_getD_last goal nc _ hglen, ?_⟩
  intro j hj2 hj1
  exact margin_ret_getD_other goal nc _ j hj2 hj1

/-- Closed instance of the amended C3. -/
theorem margin_frame_condition_witness :
    ∃ ret,
      margin_compute_boundaries (choose_linear 1 1 false)
        [10, 10, 9, 7, 4, 2, 0] [1, 2, 3, 6]
        [some 1, none, some 4, none] = .ok ret ∧
      ret.length = ([1, 2, 3, 6] : List ℤ).length ∧
      ret.getD (([1, 2, 3, 6] : List ℤ).length - 2) none = some
        (if choose_linear 1 1 false
            (margin_goal_ideal [1, 2, 3, 6] 10 - ((4 : ℤ) : ℚ))
            (((7 : ℤ) : ℚ) - margin_goal_ideal [1, 2, 3, 6] 10)
          then (7 : ℤ) else (4 : ℤ)) ∧
      ret.getD (([1, 2, 3, 6] : List ℤ).length - 1) none = some 10 ∧
      ∀ j, j ≠ ([1, 2, 3, 6] : List ℤ).length - 2 →
        j ≠ ([1, 2, 3, 6] : List ℤ).length - 1 → ret.getD j none = none :=
  margin_frame_condition (choose_linear 1 1 false) 10 [10, 9, 7, 4, 2, 0]
    [1, 2, 3, 6] [some 1, none, some 4, none] (by decide) (by decide)
    (by decide) 4 7 (by with_unfolding_all decide)

/-- C10: the output of a `MarginAlgorithm` depends on `known_boundaries`
only through its length: two inputs differing only in the contents of
equal-length `known_boundaries` vectors produce identical results. -/
theorem margin_known_bound_independence (cf : ℚ → ℚ → Bool)
    (cum_stats goal : List ℤ) (kb1 kb2 : List (Option ℤ))
    (h1 : kb1.length = goal.length) (h2 : kb2.length = goal.length) :
    margin_compute_boundaries cf cum_stats goal kb1 =
      margin_compute_boundaries cf cum_stats goal kb2 := by
  unfold margin_compute_boundaries
  rw [if_neg (by simp [h1]), if_neg (by simp [h2])]

/-- Closed instance of C10. -/
theorem margin_known_bound_independence_witness :
    margin_compute_boundaries (choose_linear 1 1 false)
      [10, 10, 9, 7, 4, 2, 0] [1, 2, 3, 6]
      [some 1, some 2, some 3, some 4] =
    margin_compute_boundaries (choose_linear 1 1 false)
      [10, 10, 9, 7, 4, 2, 0] [1, 2, 3, 6] [none, none, none, none] :=
  margin_known_bound_independence (choose_linear 1 1 false)
    [10, 10, 9, 7, 4, 2, 0] [1, 2, 3, 6]
    [some 1, some 2, some 3, some 4] [none, none, none, none]
    (by decide) (by decide)

/-- C9 counterexample: raising `num/den` from `1/1` to `2/1` *lowers* the
award count (6 to 4) on `cum_stats = [10, 6, 4, 1]`, `goal = [1, 2, 3, 6]`,
refuting "increasing `num/den` never decreases the award count". -/
theorem margin_linear_monotone_counterexample :
    margin_compute_boundaries (choose_linear 1 1 false) [10, 6, 4, 1]
      [1, 2, 3, 6] [none, none, none, none] =
      .ok [none, none, some 6, some 10] ∧
    margin_compute_boundaries (choose_linear 2 1 false) [10, 6, 4, 1]
      [1, 2, 3, 6] [none, none, none, none] =
      .ok [none, none, some 4, some 10] ∧
    (1 : ℚ) / 1 ≤ (2 : ℚ) / 1 ∧ ¬((6 : ℤ) ≤ 4) := by
  refine ⟨?_, ?_, by norm_num, by decide⟩
  · with_unfolding_all decide
  · with_unfolding_all decide

lemma choose_linear_le_mono (num1 den1 num2 den2 : ℤ) (strict : Bool)
    (mb ma : ℚ) (hmb : 0 ≤ mb) (hma : 0 ≤ ma)
    (hd1 : (0 : ℚ) < (den1 : ℚ)) (hd2 : (0 : ℚ) < (den2 : ℚ))
    (hr : (num1 : ℚ) / (den1 : ℚ) ≤ (num2 : ℚ) / (den2 : ℚ))
    (h2 : choose_linear num2 den2 strict mb ma = true) :
    choose_linear num1 den1 strict mb ma = true := by
  rw [choose_linear_eq_true_iff] at h2 ⊢
  have hcross : (num1 : ℚ) * (den2 : ℚ) ≤ (num2 : ℚ) * (den1 : ℚ) := by
    rwa [div_le_div_iff hd1 hd2] at hr
  have hcm : (num1 : ℚ) * (den2 : ℚ) * ma ≤ (num2 : ℚ) * (den1 : ℚ) * ma :=
    mul_le_mul_of_nonneg_right hcross hma
  rcases h2 with hgt | ⟨heq, hs⟩
  · left
    nlinarith [hcm, hgt, hd1, hd2, mul_lt_mul_of_pos_left hgt hd1]
  · have hle : (num1 : ℚ) * ma ≤ (den1 : ℚ) * mb := by
      nlinarith [hcm, heq, hd1, hd2]
    rcases lt_or_eq_of_le hle with hlt | heq1
    · left
      exact hlt
    · right
      exact ⟨heq1.symm, hs⟩

/-- C9 amended: for `MarginAlgorithmLinear`, increasing `num/den` (same
`strict`) never *increases* the award count at position `T-1` (the rule is
antitone in `num/den`, not monotone as claimed). -/
theorem margin_linear_ratio_antitone (num1 den1 num2 den2 : ℤ)
    (strict : Bool) (nc : ℤ) (cs' goal : List ℤ) (kb : List (Option ℤ))
    (hlen : kb.length = goal.length) (hglen : 2 ≤ goal.length)
    (hgsum : goal.sum ≠ 0) (hpos : 0 ≤ margin_goal_ideal goal nc)
    (hd1 : (0 : ℤ) < den1) (hd2 : (0 : ℤ) < den2)
    (hr : (num1 : ℚ) / (den1 : ℚ) ≤ (num2 : ℚ) / (den2 : ℚ)) (nb na : ℤ)
    (hbr : get_cum_alternatives (margin_goal_ideal goal nc) (nc :: cs') =
      .ok (nb, na)) :
    ∃ ret1 ret2 v1 v2,
      margin_compute_boundaries (choose_linear num1 den1 strict) (nc :: cs')
        goal kb = .ok ret1 ∧
      margin_compute_boundaries (choose_linear num2 den2 strict) (nc :: cs')
        goal kb = .ok ret2 ∧
      ret1.getD (goal.length - 2) none = some v1 ∧
      ret2.getD (goal.length - 2) none = some v2 ∧ v2 ≤ v1 := by
  obtain ⟨hnb, hna, _, _⟩ :=
    get_cum_alternatives_ok_bounds (margin_goal_ideal goal nc) (nc :: cs')
      nb na hpos hbr
  have hball : nb ≤ na := by
    exact_mod_cast le_trans hnb hna
  have hmb : 0 ≤ margin_goal_ideal goal nc - (nb : ℚ) := by linarith
  have hma : 0 ≤ (na : ℚ) - margin_goal_ideal goal nc := by linarith
  refine ⟨_, _, _, _,
    margin_compute_eq_ok (choose_linear num1 den1 strict) nc cs' goal kb
      hlen hglen hgsum nb na hbr,
    margin_compute_eq_ok (choose_linear num2 den2 strict) nc cs' goal kb
      hlen hglen hgsum nb na hbr,
    margin_ret_getD_medal goal nc _ hglen,
    margin_ret_getD_medal goal nc _ hglen, ?_⟩
  by_cases h2 : choose_linear num2 den2 strict
      (margin_goal_ideal goal nc - (nb : ℚ))
      ((na : ℚ) - margin_goal_ideal goal nc) = true
  · have h1 := choose_linear_le_mono num1 den1 num2 den2 strict _ _ hmb hma
      (by exact_mod_cast hd1) (by exact_mod_cast hd2) hr h2
    rw [h1, h2]
  · rw [Bool.not_eq_true] at h2
    rw [h2]
    simp only [Bool.false_eq_true, if_false]
    split_ifs
    · exact hball
    · exact le_refl nb

/-- Closed instance of the amended C9. -/
theorem margin_linear_ratio_antitone_witness :
    ∃ ret1 ret2 v1 v2,
      margin_compute_boundaries (choose_linear 2 1 false) [10, 6, 4, 1]
        [1, 2, 3, 6] [none, none, none, none] = .ok ret1 ∧
      margin_compute_boundaries (choose_linear 5 1 false) [10, 6, 4, 1]
        [1, 2, 3, 6] [none, none, none, none] = .ok ret2 ∧
      ret1.getD (([1, 2, 3, 6] : List ℤ).length - 2) none = some v1 ∧
      ret2.getD (([1, 2, 3, 6] : List ℤ).length - 2) none = some v2 ∧
      v2 ≤ v1 :=
  margin_linear_ratio_antitone 2 1 5 1 false 10 [6, 4, 1] [1, 2, 3, 6]
    [none, none, none, none] (by decide) (by decide) (by decide)
    (by with_unfolding_all decide) (by decide) (by decide) (by norm_num)
    4 6 (by with_unfolding_all decide)

/-! ## Characterization of the tier algorithms -/

/-- `run_steps` with a step that stores the result of a
position-independent computation `c i` at position `i`: on success, each
visited position holds `c i`'s value and the others are untouched. -/
lemma run_steps_oblivious
    (step : List (Option ℤ) → ℕ → Except AlgError (List (Option ℤ)))
    (c : ℕ → Except AlgError ℤ)
    (hstep : ∀ r i, step r i =
      match c i with
      | .error e => .error e
      | .ok v => .ok (r.set i (some v))) :
    ∀ (L : List ℕ) (r ret : List (Option ℤ)), L.Nodup →
      run_steps step L r = .ok ret →
      ret.length = r.length ∧
      (∀ j, j ∉ L → ret.getD j none = r.getD j none) ∧
      (∀ i ∈ L, i < r.length →
        ∃ v, c i = .ok v ∧ ret.getD i none = some v) := by
  intro L
  induction L with
  | nil =>
    intro r ret _ h
    have : r = ret := by
      simpa [run_steps] using h
    subst this
    exact ⟨rfl, fun j _ => rfl, fun i hi => absurd hi (by simp)⟩
  | cons i rest ih =>
    intro r ret hnd h
    rw [List.nodup_cons] at hnd
    simp only [run_steps, hstep] at h
    rcases hc : c i with e | v
    · rw [hc] at h
      exact absurd h (by simp)
    · rw [hc] at h
      obtain ⟨hlen, hframe, hvals⟩ :=
        ih (r.set i (some v)) ret hnd.2 h
      rw [List.length_set] at hlen
      refine ⟨hlen, ?_, ?_⟩
      · intro j hj
        rw [List.mem_cons, not_or] at hj
        rw [hframe j hj.2, getD_set_ne _ _ _ (Ne.symm hj.1)]
      · intro k hk hklt
        rcases List.mem_cons.mp hk with rfl | hk'
        · refine ⟨v, hc, ?_⟩
          rw [hframe k hnd.1, getD_set_self _ _ _ _ hklt]
        · obtain ⟨v', hv', hret⟩ :=
            hvals k hk' (by rw [List.length_set]; exact hklt)
          exact ⟨v', hv', hret⟩

lemma lowest_first_choice_none_ne_ok (cum_stats goal : List ℤ) (i : ℕ)
    (v : ℤ) : lowest_first_choice cum_stats goal i none ≠ .ok v := by
  simp only [lowest_first_choice]
  split_ifs <;> simp

/-- `run_steps` of the LowestFirst loop over positions `n-1, ..., 0`:
each resolved position holds the choice computed from the final value at
the position above it, and positions `≥ n` are untouched. -/
lemma run_steps_lowest_first (cum_stats goal : List ℤ) :
    ∀ (n : ℕ) (r ret : List (Option ℤ)), n < r.length →
      run_steps (lowest_first_step cum_stats goal)
        (List.range n).reverse r = .ok ret →
      ret.length = r.length ∧
      (∀ j, n ≤ j → ret.getD j none = r.getD j none) ∧
      (∀ i, i < n → ∃ prev v, ret.getD (i + 1) none = some prev ∧
        lowest_first_choice cum_stats goal i (some prev) = .ok v ∧
        ret.getD i none = some v) := by
  intro n
  induction n with
  | zero =>
    intro r ret _ h
    have : r = ret := by
      simpa [run_steps] using h
    subst this
    exact ⟨rfl, fun j _ => rfl, fun i hi => absurd hi (by omega)⟩
  | succ n ih =>
    intro r ret hlt h
    rw [List.range_succ, List.reverse_append] at h
    simp only [List.reverse_singleton, List.singleton_append, run_steps,
      lowest_first_step] at h
    rcases hprev : r.getD (n + 1) none with _ | prev
    · rw [hprev] at h
      rcases hc : lowest_first_choice cum_stats goal n none with e | v
      · rw [hc] at h
        exact absurd h (by simp)
      · exact absurd hc (lowest_first_choice_none_ne_ok cum_stats goal n v)
    · rw [hprev] at h
      rcases hc : lowest_first_choice cum_stats goal n (some prev)
          with e | v
      · rw [hc] at h
        exact absurd h (by simp)
      · rw [hc] at h
        obtain ⟨hlen, hframe, hvals⟩ :=
          ih (r.set n (some v)) ret (by rw [List.length_set]; omega) h
        rw [List.length_set] at hlen
        refine ⟨hlen, ?_, ?_⟩
        · intro j hj
          rw [hframe j (by omega),
            @getD_set_ne _ r n j (some v) none (by omega)]
        · intro i hi
          rcases Nat.lt_succ_iff_lt_or_eq.mp hi with hi' | rfl
          · exact hvals i hi'
          · refine ⟨prev, v, ?_, hc, ?_⟩
            · rw [hframe (i + 1) (by omega),
                @getD_set_ne _ r i (i + 1) (some v) none (by omega), hprev]
            · rw [hframe i (by omega),
                getD_set_self _ _ _ _ (by omega : i < r.length)]

lemma independent_choice_ok (cum_stats goal : List ℤ) (gsm nm v : ℤ)
    (i : ℕ)
    (h : independent_choice cum_stats goal gsm (some nm) i = .ok v) :
    gsm ≠ 0 ∧ ∃ nb na,
      get_cum_alternatives
        ((nm : ℚ) * ((((goal.take (i + 1)).sum : ℤ) : ℚ) / ((gsm : ℤ) : ℚ)))
        cum_stats = .ok (nb, na) ∧
      v = (if (na : ℚ) - (nm : ℚ) * ((((goal.take (i + 1)).sum : ℤ) : ℚ) /
              ((gsm : ℤ) : ℚ)) ≤
            (nm : ℚ) * ((((goal.take (i + 1)).sum : ℤ) : ℚ) / ((gsm : ℤ) : ℚ)) -
              (nb : ℚ)
          then na else nb) := by
  simp only [independent_choice] at h
  by_cases hg : gsm = 0
  · rw [if_pos hg] at h
    exact absurd h (by simp)
  · rw [if_neg hg] at h
    refine ⟨hg, ?_⟩
    rcases hbr : get_cum_alternatives
        ((nm : ℚ) * ((((goal.take (i + 1)).sum : ℤ) : ℚ) / ((gsm : ℤ) : ℚ)))
        cum_stats with e | p
    · rw [hbr] at h
      exact absurd h (by simp)
    · obtain ⟨nb, na⟩ := p
      rw [hbr] at h
      exact ⟨nb, na, rfl, (Except.ok.inj h).symm⟩

/-- C5: `MedalAlgorithmIndependent` resolves each tier position
`i < T-1` to the bracket endpoint, with the smaller margin, of the ideal
`known_boundaries[T-1] * sum(goal[0..i]) / sum(goal[0..T-1])` (the
medal-tier weight sum), ties choosing `num_above`. -/
theorem independent_per_tier_rule (cum_stats goal : List ℤ)
    (kb ret : List (Option ℤ)) (nm : ℤ) (ideal : ℕ → ℚ)
    (hlen : kb.length = goal.length) (hglen : 2 ≤ goal.length)
    (hnm : kb.getD (goal.length - 2) none = some nm)
    (hideal : ∀ i, ideal i =
      (nm : ℚ) * ((((goal.take (i + 1)).sum : ℤ) : ℚ)) /
      (((goal.take (goal.length - 1)).sum : ℤ) : ℚ))
    (hok : independent_compute_boundaries cum_stats goal kb = .ok ret) :
    ∀ i, i < goal.length - 2 →
      ∃ nb na,
        get_cum_alternatives (ideal i) cum_stats = .ok (nb, na) ∧
        ret.getD i none = some
          (if (na : ℚ) - ideal i ≤ ideal i - (nb : ℚ)
           then na else nb) := by
  have hgne : goal ≠ [] := by
    intro hx
    rw [hx] at hglen
    simp at hglen
  have hlast : goal.getLast? = some (goal.getLast hgne) :=
    List.getLast?_eq_getLast goal hgne
  have hgl : goal.getLast! = goal.getLast hgne :=
    List.getLast!_of_getLast? hlast
  have hgsm : goal.sum - goal.getLast! =
      (goal.take (goal.length - 1)).sum := by
    rw [take_sum_eq_sum_sub_getLast goal hgne, hgl, hlast]
    simp
  simp only [independent_compute_boundaries] at hok
  rw [if_neg (by simp [hlen]), if_neg (by omega)] at hok
  obtain ⟨hlenr, hframe, hvals⟩ :=
    run_steps_oblivious _ _ (fun r i => rfl) _ kb ret
      (List.nodup_range _) hok
  intro i hi
  obtain ⟨v, hv, hreti⟩ := hvals i (List.mem_range.mpr hi)
    (by rw [hlen]; omega)
  rw [show kb.length - 2 = goal.length - 2 from by rw [hlen], hnm] at hv
  obtain ⟨hg0, nb, na, hbr, hveq⟩ :=
    independent_choice_ok cum_stats goal _ nm v i hv
  have hie : (nm : ℚ) * ((((goal.take (i + 1)).sum : ℤ) : ℚ) /
      ((goal.sum - goal.getLast! : ℤ) : ℚ)) = ideal i := by
    rw [hideal i, ← hgsm, mul_div_assoc]
  rw [hie] at hbr hveq
  exact ⟨nb, na, hbr, by rw [hreti, hveq]⟩

/-- Closed instance of C5 at tier 1 (ideal exactly 2, bracket `(2, 2)`,
tie resolved to `num_above`). -/
theorem independent_per_tier_rule_witness :
    ∃ nb na,
      get_cum_alternatives
        ((4 : ℚ) *
          ((((([1, 2, 3, 6] : List ℤ).take (1 + 1)).sum : ℤ) : ℚ)) /
          (((([1, 2, 3, 6] : List ℤ).take
            (([1, 2, 3, 6] : List ℤ).length - 1)).sum : ℤ) : ℚ))
        [10, 10, 9, 7, 4, 2, 0] = .ok (nb, na) ∧
      ([some 0, some 2, some 4, none] : List (Option ℤ)).getD 1 none =
        some
        (if (na : ℚ) - (4 : ℚ) *
              ((((([1, 2, 3, 6] : List ℤ).take (1 + 1)).sum : ℤ) : ℚ)) /
              (((([1, 2, 3, 6] : List ℤ).take
                (([1, 2, 3, 6] : List ℤ).length - 1)).sum : ℤ) : ℚ) ≤
            (4 : ℚ) *
              ((((([1, 2, 3, 6] : List ℤ).take (1 + 1)).sum : ℤ) : ℚ)) /
              (((([1, 2, 3, 6] : List ℤ).take
                (([1, 2, 3, 6] : List ℤ).length - 1)).sum : ℤ) : ℚ) -
            (nb : ℚ)
         then na else nb) :=
  independent_per_tier_rule [10, 10, 9, 7, 4, 2, 0] [1, 2, 3, 6]
    [none, none, some 4, none] [some 0, some 2, some 4, none] 4
    (fun i => (4 : ℚ) *
      ((((([1, 2, 3, 6] : List ℤ).take (i + 1)).sum : ℤ) : ℚ)) /
      (((([1, 2, 3, 6] : List ℤ).take
        (([1, 2, 3, 6] : List ℤ).length - 1)).sum : ℤ) : ℚ))
    (by decide) (by decide) (by decide) (fun i => rfl)
    (by with_unfolding_all decide) 1 (by decide)

lemma lowest_first_choice_ok (cum_stats goal : List ℤ) (i : ℕ)
    (prev v : ℤ)
    (h : lowest_first_choice cum_stats goal i (some prev) = .ok v) :
    (goal.take (i + 2)).sum ≠ 0 ∧ ∃ nb na,
      get_cum_alternatives
        ((prev : ℚ) * ((((goal.take (i + 1)).sum : ℤ) : ℚ) /
          (((goal.take (i + 2)).sum : ℤ) : ℚ))) cum_stats = .ok (nb, na) ∧
      v = (if (na : ℚ) - (prev : ℚ) * ((((goal.take (i + 1)).sum : ℤ) : ℚ) /
              (((goal.take (i + 2)).sum : ℤ) : ℚ)) ≤
            (prev : ℚ) * ((((goal.take (i + 1)).sum : ℤ) : ℚ) /
              (((goal.take (i + 2)).sum : ℤ) : ℚ)) - (nb : ℚ)
          then na else nb) := by
  simp only [lowest_first_choice] at h
  by_cases hg : (goal.take (i + 2)).sum = 0
  · rw [if_pos hg] at h
    exact absurd h (by simp)
  · rw [if_neg hg] at h
    refine ⟨hg, ?_⟩
    rcases hbr : get_cum_alternatives
        ((prev : ℚ) * ((((goal.take (i + 1)).sum : ℤ) : ℚ) /
          (((goal.take (i + 2)).sum : ℤ) : ℚ))) cum_stats with e | p
    · rw [hbr] at h
      exact absurd h (by simp)
    · obtain ⟨nb, na⟩ := p
      rw [hbr] at h
      exact ⟨nb, na, rfl, (Except.ok.inj h).symm⟩

/-- C6: `MedalAlgorithmLowestFirst` resolves positions `T-2, ..., 0` in
that order; each position `i` receives the bracket endpoint with the
smaller margin of the ideal `ret[i+1] * sum(goal[0..i]) /
sum(goal[0..i+1])`, computed from the already-resolved boundary above it
(ties choosing `num_above`), and positions `≥ T-1` are untouched. -/
theorem lowest_first_sequential_rule (cum_stats goal : List ℤ)
    (kb ret : List (Option ℤ))
    (hlen : kb.length = goal.length) (hglen : 2 ≤ goal.length)
    (hok : lowest_first_compute_boundaries cum_stats goal kb = .ok ret) :
    (∀ j, goal.length - 2 ≤ j → ret.getD j none = kb.getD j none) ∧
    ∀ i, i < goal.length - 2 →
      ∃ prev nb na, ret.getD (i + 1) none = some prev ∧
        get_cum_alternatives
          ((prev : ℚ) * ((((goal.take (i + 1)).sum : ℤ) : ℚ) /
            (((goal.take (i + 2)).sum : ℤ) : ℚ))) cum_stats =
          .ok (nb, na) ∧
        ret.getD i none = some
          (if (na : ℚ) - (prev : ℚ) *
                ((((goal.take (i + 1)).sum : ℤ) : ℚ) /
                  (((goal.take (i + 2)).sum : ℤ) : ℚ)) ≤
              (prev : ℚ) * ((((goal.take (i + 1)).sum : ℤ) : ℚ) /
                (((goal.take (i + 2)).sum : ℤ) : ℚ)) - (nb : ℚ)
           then na else nb) := by
  simp only [lowest_first_compute_boundaries] at hok
  rw [if_neg (by simp [hlen])] at hok
  obtain ⟨hlenr, hframe, hvals⟩ :=
    run_steps_lowest_first cum_stats goal (goal.length - 2) kb ret
      (by omega) hok
  refine ⟨hframe, ?_⟩
  intro i hi
  obtain ⟨prev, v, hprev, hchoice, hreti⟩ := hvals i hi
  obtain ⟨hg0, nb, na, hbr, hveq⟩ :=
    lowest_first_choice_ok cum_stats goal i prev v hchoice
  exact ⟨prev, nb, na, hprev, hbr, by rw [hreti, hveq]⟩

/-- Closed instance of C6 (tier 1's ideal is `4 * 3/6 = 2`, bracket
`(2, 2)`; tier 0's ideal is `2 * 1/3 = 2/3`, bracket `(0, 2)`). -/
theorem lowest_first_sequential_rule_witness :
    (∀ j, ([1, 2, 3, 6] : List ℤ).length - 2 ≤ j →
      ([some 0, some 2, some 4, none] : List (Option ℤ)).getD j none =
        ([none, none, some 4, none] : List (Option ℤ)).getD j none) ∧
    ∀ i, i < ([1, 2, 3, 6] : List ℤ).length - 2 →
      ∃ prev nb na,
        ([some 0, some 2, some 4, none] : List (Option ℤ)).getD (i + 1)
            none = some prev ∧
        get_cum_alternatives
          ((prev : ℚ) *
            (((((([1, 2, 3, 6] : List ℤ)).take (i + 1)).sum : ℤ) : ℚ) /
              (((([1, 2, 3, 6] : List ℤ).take (i + 2)).sum : ℤ) : ℚ)))
          [10, 10, 9, 7, 4, 2, 0] = .ok (nb, na) ∧
        ([some 0, some 2, some 4, none] : List (Option ℤ)).getD i none =
          some
          (if (na : ℚ) - (prev : ℚ) *
                (((((([1, 2, 3, 6] : List ℤ)).take (i + 1)).sum : ℤ) : ℚ) /
                  (((([1, 2, 3, 6] : List ℤ).take (i + 2)).sum : ℤ) : ℚ)) ≤
              (prev : ℚ) *
                (((((([1, 2, 3, 6] : List ℤ)).take (i + 1)).sum : ℤ) : ℚ) /
                  (((([1, 2, 3, 6] : List ℤ).take (i + 2)).sum : ℤ) : ℚ)) -
                (nb : ℚ)
           then na else nb) :=
  lowest_first_sequential_rule [10, 10, 9, 7, 4, 2, 0] [1, 2, 3, 6]
    [none, none, some 4, none] [some 0, some 2, some 4, none]
    (by decide) (by decide) (by with_unfolding_all decide)

/-! ## Characterization of the exhaustive score search -/

/-- Invariant of `search_fold` with an incumbent: the result is either the
incumbent (all later candidates scoring strictly worse) or the result of
the last candidate whose score is minimal. -/
lemma search_fold_ok_acc {σ : Type} [LinearOrder σ]
    (eval : ℤ → Except AlgError (σ × List (Option ℤ))) :
    ∀ (l : List ℤ) (bs : σ) (bb : List (Option ℤ)) (s : σ)
      (b : List (Option ℤ)),
      search_fold eval l (some (bs, bb)) = .ok (s, b) →
      (s = bs ∧ b = bb ∧ ∀ x ∈ l, ∃ p, eval x = .ok p ∧ bs < p.1) ∨
      (∃ l₁ c l₂, l = l₁ ++ c :: l₂ ∧ eval c = .ok (s, b) ∧ s ≤ bs ∧
        (∀ x ∈ l₁, ∃ p, eval x = .ok p ∧ s ≤ p.1) ∧
        (∀ x ∈ l₂, ∃ p, eval x = .ok p ∧ s < p.1)) := by
  intro l
  induction l with
  | nil =>
    intro bs bb s b h
    simp only [search_fold] at h
    have := Except.ok.inj h
    exact Or.inl ⟨(congrArg Prod.fst this).symm, (congrArg Prod.snd this).symm,
      by simp⟩
  | cons c rest ih =>
    intro bs bb s b h
    simp only [search_fold] at h
    rcases hc : eval c with e | p
    · rw [hc] at h
      exact absurd h (by simp)
    · obtain ⟨ns, nbd⟩ := p
      rw [hc] at h
      dsimp only at h
      by_cases hle : ns ≤ bs
      · rw [if_pos hle] at h
        rcases ih ns nbd s b h with ⟨hs, hb, hall⟩ | ⟨l₁, c', l₂, heq, hc', hsle, h1, h2⟩
        · subst hs
          subst hb
          refine Or.inr ⟨[], c, rest, rfl, hc, hle, by simp, ?_⟩
          intro x hx
          exact hall x hx
        · refine Or.inr ⟨c :: l₁, c', l₂, ?_, hc', ?_, ?_, h2⟩
          · rw [heq, List.cons_append]
          · exact le_trans hsle hle
          · intro x hx
            rcases List.mem_cons.mp hx with rfl | hx'
            · exact ⟨(ns, nbd), hc, hsle⟩
            · exact h1 x hx'
      · rw [if_neg hle] at h
        have hbslt : bs < ns := lt_of_not_le hle
        rcases ih bs bb s b h with ⟨hs, hb, hall⟩ | ⟨l₁, c', l₂, heq, hc', hsle, h1, h2⟩
        · refine Or.inl ⟨hs, hb, ?_⟩
          intro x hx
          rcases List.mem_cons.mp hx with rfl | hx'
          · exact ⟨(ns, nbd), hc, hbslt⟩
          · exact hall x hx'
        · refine Or.inr ⟨c :: l₁, c', l₂, ?_, hc', hsle, ?_, h2⟩
          · rw [heq, List.cons_append]
          · intro x hx
            rcases List.mem_cons.mp hx with rfl | hx'
            · exact ⟨(ns, nbd), hc, le_of_lt (lt_of_le_of_lt hsle hbslt)⟩
            · exact h1 x hx'

/-- On success from an empty incumbent, `search_fold` returns the result
of the last candidate attaining the minimal score: candidates before it
score `≥`, candidates after it score strictly `>`. -/
lemma search_fold_ok_none {σ : Type} [LinearOrder σ]
    (eval : ℤ → Except AlgError (σ × List (Option ℤ)))
    (l : List ℤ) (s : σ) (b : List (Option ℤ))
    (h : search_fold eval l none = .ok (s, b)) :
    ∃ l₁ c l₂, l = l₁ ++ c :: l₂ ∧ eval c = .ok (s, b) ∧
      (∀ x ∈ l₁, ∃ p, eval x = .ok p ∧ s ≤ p.1) ∧
      (∀ x ∈ l₂, ∃ p, eval x = .ok p ∧ s < p.1) := by
  rcases l with _ | ⟨c, rest⟩
  · exact absurd h (by simp [search_fold])
  · simp only [search_fold] at h
    rcases hc : eval c with e | p
    · rw [hc] at h
      exact absurd h (by simp)
    · obtain ⟨ns, nbd⟩ := p
      rw [hc] at h
      dsimp only at h
      rcases search_fold_ok_acc eval rest ns nbd s b h with
        ⟨hs, hb, hall⟩ | ⟨l₁, c', l₂, heq, hc', hsle, h1, h2⟩
      · subst hs
        subst hb
        exact ⟨[], c, rest, rfl, hc, by simp, hall⟩
      · refine ⟨c :: l₁, c', l₂, ?_, hc', ?_, h2⟩
        · rw [heq, List.cons_append]
        · intro x hx
          rcases List.mem_cons.mp hx with rfl | hx'
          · exact ⟨(ns, nbd), hc, hsle⟩
          · exact h1 x hx'

/-- The search space of `_search_by_score` at position `pos`: every way of
assigning to positions `pos, pos-1, ..., 0` a candidate value bounded by
the (already assigned) position above. -/
def all_cands (cum_stats : List ℤ) : ℕ → List (Option ℤ) →
    List (List (Option ℤ))
  | 0, kb =>
    match kb.getD 1 none with
    | none => []
    | some bound =>
      (search_candidates cum_stats bound).map (fun c => kb.set 0 (some c))
  | pos + 1, kb =>
    match kb.getD (pos + 2) none with
    | none => []
    | some bound =>
      ((search_candidates cum_stats bound).map
        (fun c => all_cands cum_stats pos (kb.set (pos + 1) (some c)))).flatten

lemma search_candidates_subset (cum_stats : List ℤ) (bound : ℤ) :
    ∀ x ∈ search_candidates cum_stats bound, x ∈ cum_stats := by
  intro x hx
  exact List.mem_reverse.mp
    ((List.takeWhile_sublist _).subset hx)

lemma search_candidates_sorted (cum_stats : List ℤ)
    (hs : cum_stats.Pairwise (· ≥ ·)) (bound : ℤ) :
    (search_candidates cum_stats bound).Pairwise (· ≤ ·) :=
  List.Pairwise.sublist (List.takeWhile_sublist _)
    (List.pairwise_reverse.mpr hs)

lemma lt_length_of_getD_eq_some {β : Type} (l : List (Option β)) (j : ℕ)
    (v : β) (h : l.getD j none = some v) : j < l.length := by
  by_contra hge
  rw [List.getD_eq_getElem?_getD,
    List.getElem?_eq_none (by omega : l.length ≤ j)] at h
  simp at h

lemma all_cands_mem_spec (cum_stats : List ℤ) :
    ∀ (pos : ℕ) (kb b : List (Option ℤ)), b ∈ all_cands cum_stats pos kb →
      b.length = kb.length ∧
      (∀ j, pos < j → b.getD j none = kb.getD j none) ∧
      (∀ j v, b.getD j none = some v →
        kb.getD j none = some v ∨ v ∈ cum_stats) := by
  intro pos
  induction pos with
  | zero =>
    intro kb b hb
    simp only [all_cands] at hb
    rcases hkb : kb.getD 1 none with _ | bound
    · rw [hkb] at hb
      exact absurd hb (by simp)
    · rw [hkb] at hb
      obtain ⟨c, hc, rfl⟩ := List.mem_map.mp hb
      have hklen : 1 < kb.length := lt_length_of_getD_eq_some kb 1 bound hkb
      refine ⟨List.length_set kb 0 _, ?_, ?_⟩
      · intro j hj
        exact getD_set_ne _ _ _ (by omega)
      · intro j v hv
        by_cases hj : j = 0
        · subst hj
          rw [getD_set_self _ _ _ _ (by omega)] at hv
          have hvc : v = c := (Option.some.inj hv).symm
          subst hvc
          exact Or.inr (search_candidates_subset cum_stats bound v hc)
        · rw [getD_set_ne _ _ _ (by omega)] at hv
          exact Or.inl hv
  | succ pos ih =>
    intro kb b hb
    simp only [all_cands] at hb
    rcases hkb : kb.getD (pos + 2) none with _ | bound
    · rw [hkb] at hb
      exact absurd hb (by simp)
    · rw [hkb] at hb
      obtain ⟨sub, hsub, hbsub⟩ := List.mem_flatten.mp hb
      obtain ⟨c, hc, rfl⟩ := List.mem_map.mp hsub
      have hklen : pos + 2 < kb.length :=
        lt_length_of_getD_eq_some kb (pos + 2) bound hkb
      obtain ⟨hlen, hframe, hvals⟩ := ih (kb.set (pos + 1) (some c)) b hbsub
      rw [List.length_set] at hlen
      refine ⟨hlen, ?_, ?_⟩
      · intro j hj
        rw [hframe j (by omega), getD_set_ne _ _ _ (by omega)]
      · intro j v hv
        rcases hvals j v hv with hkv | hcs
        · by_cases hj : j = pos + 1
          · subst hj
            rw [getD_set_self _ _ _ _ (by omega)] at hkv
            exact Or.inr ((Option.some.inj hkv) ▸
              search_candidates_subset cum_stats bound c hc)
          · rw [getD_set_ne _ _ _ (by omega)] at hkv
            exact Or.inl hkv
        · exact Or.inr hcs

/-- The integer value at position `j` of a (resolved) boundary vector. -/
def bval (b : List (Option ℤ)) (j : ℕ) : ℤ := (b.getD j none).getD 0

/-- The searched positions of a candidate, outermost (`pos`) first. -/
def searched_vals (b : List (Option ℤ)) (pos : ℕ) : List ℤ :=
  ((List.range (pos + 1)).reverse).map (bval b)

lemma searched_vals_succ (b : List (Option ℤ)) (pos : ℕ) :
    searched_vals b (pos + 1) = bval b (pos + 1) :: searched_vals b pos := by
  simp [searched_vals, List.range_succ]

lemma searched_vals_zero (b : List (Option ℤ)) :
    searched_vals b 0 = [bval b 0] := rfl

/-- Full characterization of `_search_by_score`: on success, the returned
vector is an explored candidate, its score is the returned score, that
score is minimal over all explored candidates, and among the candidates
attaining the returned score the returned vector is lexicographically
greatest on the searched positions, outermost position first. -/
lemma search_by_score_spec {σ : Type} [LinearOrder σ]
    (sfn : List ℤ → List (Option ℤ) → Except AlgError σ)
    (cum_stats goal : List ℤ) (hsorted : cum_stats.Pairwise (· ≥ ·)) :
    ∀ (pos : ℕ) (kb : List (Option ℤ)) (s : σ) (b : List (Option ℤ)),
      search_by_score sfn cum_stats goal pos kb = .ok (s, b) →
      b ∈ all_cands cum_stats pos kb ∧
      sfn goal b = .ok s ∧
      (∀ b' ∈ all_cands cum_stats pos kb,
        ∃ s', sfn goal b' = .ok s' ∧ s ≤ s') ∧
      (∀ b' ∈ all_cands cum_stats pos kb, sfn goal b' = .ok s →
        searched_vals b' pos = searched_vals b pos ∨
        List.Lex (· < ·) (searched_vals b' pos) (searched_vals b pos)) := by
  intro pos
  induction pos with
  | zero =>
    intro kb s b h
    simp only [search_by_score] at h
    rcases hkb : kb.getD 1 none with _ | bound
    · rw [hkb] at h
      exact absurd h (by simp)
    · rw [hkb] at h
      have hklen : 1 < kb.length := lt_length_of_getD_eq_some kb 1 bound hkb
      obtain ⟨l₁, c, l₂, hsplit, hevalc, hl₁, hl₂⟩ :=
        search_fold_ok_none _ _ _ _ h
      have hinv : ∀ (c' : ℤ) (p : σ × List (Option ℤ)),
          (match sfn goal (kb.set 0 (some c')) with
            | .error e => .error e
            | .ok t => .ok (t, kb.set 0 (some c'))) = Except.ok p →
          sfn goal (kb.set 0 (some c')) = .ok p.1 ∧
            p.2 = kb.set 0 (some c') := by
        intro c' p hp
        rcases hsc : sfn goal (kb.set 0 (some c')) with e | t
        · rw [hsc] at hp
          exact absurd hp (by simp)
        · rw [hsc] at hp
          dsimp only at hp
          obtain rfl := Except.ok.inj hp
          exact ⟨rfl, rfl⟩
      obtain ⟨hsfc0, hbset0⟩ := hinv c (s, b) hevalc
      have hsfc : sfn goal (kb.set 0 (some c)) = .ok s := hsfc0
      have hbset : b = kb.set 0 (some c) := hbset0
      have hcmem : c ∈ search_candidates cum_stats bound := by
        rw [hsplit]
        exact List.mem_append_right _ (List.mem_cons_self c l₂)
      have hbmem : b ∈ all_cands cum_stats 0 kb := by
        simp only [all_cands]
        rw [hkb]
        exact List.mem_map.mpr ⟨c, hcmem, hbset.symm⟩
      have hunpack : ∀ b', b' ∈ all_cands cum_stats 0 kb →
          ∃ c', c' ∈ search_candidates cum_stats bound ∧
            b' = kb.set 0 (some c') := by
        intro b' hb'
        simp only [all_cands] at hb'
        rw [hkb] at hb'
        obtain ⟨c', hc', hbeq⟩ := List.mem_map.mp hb'
        exact ⟨c', hc', hbeq.symm⟩
      refine ⟨hbmem, by rw [hbset]; exact hsfc, ?_, ?_⟩
      · intro b' hb'
        obtain ⟨c', hc', rfl⟩ := hunpack b' hb'
        have hcmem' : c' ∈ l₁ ++ c :: l₂ := hsplit ▸ hc'
        rcases List.mem_append.mp hcmem' with h1 | h2
        · obtain ⟨p, hp, hsp⟩ := hl₁ c' h1
          obtain ⟨hps, _⟩ := hinv c' p hp
          exact ⟨p.1, hps, hsp⟩
        · rcases List.mem_cons.mp h2 with rfl | h2'
          · exact ⟨s, hsfc, le_refl s⟩
          · obtain ⟨p, hp, hsp⟩ := hl₂ c' h2'
            obtain ⟨hps, _⟩ := hinv c' p hp
            exact ⟨p.1, hps, le_of_lt hsp⟩
      · intro b' hb' hs'
        obtain ⟨c', hc', rfl⟩ := hunpack b' hb'
        have hcmem' : c' ∈ l₁ ++ c :: l₂ := hsplit ▸ hc'
        have hnotl₂ : c' ∉ l₂ := by
          intro h2'
          obtain ⟨p, hp, hsp⟩ := hl₂ c' h2'
          obtain ⟨hps, _⟩ := hinv c' p hp
          rw [hs'] at hps
          exact absurd ((Except.ok.inj hps) ▸ hsp) (lt_irrefl s)
        have hcc : c' ∈ l₁ ∨ c' = c := by
          rcases List.mem_append.mp hcmem' with h1 | h2
          · exact Or.inl h1
          · rcases List.mem_cons.mp h2 with rfl | h2'
            · exact Or.inr rfl
            · exact absurd h2' hnotl₂
        have hle' : c' ≤ c := by
          rcases hcc with h1 | rfl
          · have hsort := search_candidates_sorted cum_stats hsorted bound
            rw [hsplit] at hsort
            obtain ⟨_, _, hcross⟩ := List.pairwise_append.mp hsort
            exact hcross c' h1 c (List.mem_cons_self c l₂)
          · exact le_refl c'
        have hbv' : bval (kb.set 0 (some c')) 0 = c' := by
          show ((kb.set 0 (some c')).getD 0 none).getD 0 = c'
          rw [getD_set_self _ _ _ _ (show 0 < kb.length by omega)]
          rfl
        have hbv : bval b 0 = c := by
          rw [hbset]
          show ((kb.set 0 (some c)).getD 0 none).getD 0 = c
          rw [getD_set_self _ _ _ _ (show 0 < kb.length by omega)]
          rfl
        rcases lt_or_eq_of_le hle' with hlt | rfl
        · right
          rw [searched_vals_zero, searched_vals_zero, hbv', hbv]
          exact List.Lex.rel hlt
        · left
          rw [hbset]
  | succ pos ih =>
    intro kb s b h
    simp only [search_by_score] at h
    rcases hkb : kb.getD (pos + 2) none with _ | bound
    · rw [hkb] at h
      exact absurd h (by simp)
    · rw [hkb] at h
      have hklen : pos + 2 < kb.length :=
        lt_length_of_getD_eq_some kb (pos + 2) bound hkb
      obtain ⟨l₁, c, l₂, hsplit, hevalc, hl₁, hl₂⟩ :=
        search_fold_ok_none _ _ _ _ h
      obtain ⟨hmemc, hscoreb, hminc, hlexc⟩ :=
        ih (kb.set (pos + 1) (some c)) s b hevalc
      have hcmem : c ∈ search_candidates cum_stats bound := by
        rw [hsplit]
        exact List.mem_append_right _ (List.mem_cons_self c l₂)
      have hbmem : b ∈ all_cands cum_stats (pos + 1) kb := by
        simp only [all_cands]
        rw [hkb]
        exact List.mem_flatten.mpr ⟨_, List.mem_map.mpr ⟨c, hcmem, rfl⟩, hmemc⟩
      have hunpack : ∀ b', b' ∈ all_cands cum_stats (pos + 1) kb →
          ∃ c', c' ∈ search_candidates cum_stats bound ∧
            b' ∈ all_cands cum_stats pos (kb.set (pos + 1) (some c')) := by
        intro b' hb'
        simp only [all_cands] at hb'
        rw [hkb] at hb'
        obtain ⟨sub, hsub, hbsub⟩ := List.mem_flatten.mp hb'
        obtain ⟨c', hc', rfl⟩ := List.mem_map.mp hsub
        exact ⟨c', hc', hbsub⟩
      have heval : ∀ c', c' ∈ search_candidates cum_stats bound →
          ∃ p, search_by_score sfn cum_stats goal pos
            (kb.set (pos + 1) (some c')) = .ok p ∧ s ≤ p.1 := by
        intro c' hc'
        have hcmem' : c' ∈ l₁ ++ c :: l₂ := hsplit ▸ hc'
        rcases List.mem_append.mp hcmem' with h1 | h2
        · exact hl₁ c' h1
        · rcases List.mem_cons.mp h2 with rfl | h2'
          · exact ⟨(s, b), hevalc, le_refl s⟩
          · obtain ⟨p, hp, hslt⟩ := hl₂ c' h2'
            exact ⟨p, hp, le_of_lt hslt⟩
      refine ⟨hbmem, hscoreb, ?_, ?_⟩
      · intro b' hb'
        obtain ⟨c', hc', hb'sub⟩ := hunpack b' hb'
        obtain ⟨p, hp, hsle⟩ := heval c' hc'
        obtain ⟨_, _, hminc', _⟩ := ih (kb.set (pos + 1) (some c')) p.1 p.2 hp
        obtain ⟨s', hs', hps'⟩ := hminc' b' hb'sub
        exact ⟨s', hs', le_trans hsle hps'⟩
      · intro b' hb' hs'
        obtain ⟨c', hc', hb'sub⟩ := hunpack b' hb'
        obtain ⟨p, hp, hsle⟩ := heval c' hc'
        obtain ⟨_, _, hminc', _⟩ := ih (kb.set (pos + 1) (some c')) p.1 p.2 hp
        obtain ⟨s'', hs'', hps''⟩ := hminc' b' hb'sub
        have hs''eq : s'' = s := by
          rw [hs'] at hs''
          exact (Except.ok.inj hs'').symm
        have hpeq : p.1 = s := le_antisymm (hs''eq ▸ hps'') hsle
        have hnotl₂ : c' ∉ l₂ := by
          intro h2'
          obtain ⟨q, hq, hqlt⟩ := hl₂ c' h2'
          rw [hp] at hq
          have hpq : p = q := Except.ok.inj hq
          rw [← hpq, hpeq] at hqlt
          exact absurd hqlt (lt_irrefl s)
        have hcc : c' ∈ l₁ ∨ c' = c := by
          have hcmem' : c' ∈ l₁ ++ c :: l₂ := hsplit ▸ hc'
          rcases List.mem_append.mp hcmem' with h1 | h2
          · exact Or.inl h1
          · rcases List.mem_cons.mp h2 with rfl | h2'
            · exact Or.inr rfl
            · exact absurd h2' hnotl₂
        have hle' : c' ≤ c := by
          rcases hcc with h1 | rfl
          · have hsort := search_candidates_sorted cum_stats hsorted bound
            rw [hsplit] at hsort
            obtain ⟨_, _, hcross⟩ := List.pairwise_append.mp hsort
            exact hcross c' h1 c (List.mem_cons_self c l₂)
          · exact le_refl c'
        have hb'top : bval b' (pos + 1) = c' := by
          obtain ⟨_, hframe', _⟩ :=
            all_cands_mem_spec cum_stats pos
              (kb.set (pos + 1) (some c')) b' hb'sub
          show (b'.getD (pos + 1) none).getD 0 = c'
          rw [hframe' (pos + 1) (by omega),
            getD_set_self _ _ _ _ (show pos + 1 < kb.length by omega)]
          rfl
        have hbtop : bval b (pos + 1) = c := by
          obtain ⟨_, hframeb, _⟩ :=
            all_cands_mem_spec cum_stats pos
              (kb.set (pos + 1) (some c)) b hmemc
          show (b.getD (pos + 1) none).getD 0 = c
          rw [hframeb (pos + 1) (by omega),
            getD_set_self _ _ _ _ (show pos + 1 < kb.length by omega)]
          rfl
        rcases lt_or_eq_of_le hle' with hlt | rfl
        · right
          rw [searched_vals_succ, searched_vals_succ, hb'top, hbtop]
          exact List.Lex.rel hlt
        · rcases hlexc b' hb'sub hs' with heqv | hlex
          · left
            rw [searched_vals_succ, searched_vals_succ, hb'top, hbtop,
              heqv]
          · right
            rw [searched_vals_succ, searched_vals_succ, hb'top, hbtop]
            exact List.Lex.cons hlex

/-- C4: for `MedalAlgorithmScore` with any scoring function, the returned
vector is an explored candidate of minimal score, and among equal-scoring
candidates it is the one that is lexicographically greatest on the
searched positions, outermost (coarsest) position first — i.e. ties are
resolved toward giving more contestants the outermost searched boundary,
then the next tier inward, and so on. -/
theorem score_search_tie_break {σ : Type} [LinearOrder σ]
    (sfn : List ℤ → List (Option ℤ) → Except AlgError σ)
    (cum_stats goal : List ℤ) (kb ret : List (Option ℤ))
    (hsorted : cum_stats.Pairwise (· ≥ ·))
    (hok : score_compute_boundaries sfn cum_stats goal kb = .ok ret) :
    ∃ s, sfn goal ret = .ok s ∧
      ret ∈ all_cands cum_stats (kb.length - 3) kb ∧
      (∀ b' ∈ all_cands cum_stats (kb.length - 3) kb,
        ∃ s', sfn goal b' = .ok s' ∧ s ≤ s') ∧
      (∀ b' ∈ all_cands cum_stats (kb.length - 3) kb,
        sfn goal b' = .ok s →
        searched_vals b' (kb.length - 3) = searched_vals ret (kb.length - 3) ∨
        List.Lex (· < ·) (searched_vals b' (kb.length - 3))
          (searched_vals ret (kb.length - 3))) := by
  simp only [score_compute_boundaries] at hok
  split_ifs at hok with h1 h2
  rcases hsr : search_by_score sfn cum_stats goal (kb.length - 3) kb
      with e | p
  · rw [hsr] at hok
    exact absurd hok (by simp)
  · obtain ⟨s, b⟩ := p
    rw [hsr] at hok
    dsimp only at hok
    obtain rfl := Except.ok.inj hok
    obtain ⟨hmem, hscore, hmin, hlex⟩ :=
      search_by_score_spec sfn cum_stats goal hsorted (kb.length - 3)
        kb s b hsr
    exact ⟨s, hscore, hmem, hmin, hlex⟩

/-- Closed instance of C4 with the `Lp(1, false)` scoring metric. -/
theorem score_search_tie_break_witness :
    ∃ s, score_lp 1 false [1, 2, 3, 6]
        [some 2, some 4, some 7, some 10] = .ok s ∧
      ([some 2, some 4, some 7, some 10] : List (Option ℤ)) ∈
        all_cands [10, 10, 9, 7, 4, 2, 0]
          (([none, none, some 7, some 10] : List (Option ℤ)).length - 3)
          [none, none, some 7, some 10] ∧
      (∀ b' ∈ all_cands [10, 10, 9, 7, 4, 2, 0]
          (([none, none, some 7, some 10] : List (Option ℤ)).length - 3)
          [none, none, some 7, some 10],
        ∃ s', score_lp 1 false [1, 2, 3, 6] b' = .ok s' ∧ s ≤ s') ∧
      (∀ b' ∈ all_cands [10, 10, 9, 7, 4, 2, 0]
          (([none, none, some 7, some 10] : List (Option ℤ)).length - 3)
          [none, none, some 7, some 10],
        score_lp 1 false [1, 2, 3, 6] b' = .ok s →
        searched_vals b'
            (([none, none, some 7, some 10] : List (Option ℤ)).length - 3) =
          searched_vals [some 2, some 4, some 7, some 10]
            (([none, none, some 7, some 10] : List (Option ℤ)).length - 3) ∨
        List.Lex (· < ·)
          (searched_vals b'
            (([none, none, some 7, some 10] : List (Option ℤ)).length - 3))
          (searched_vals [some 2, some 4, some 7, some 10]
            (([none, none, some 7, some 10] : List (Option ℤ)).length - 3))) :=
  score_search_tie_break (score_lp 1 false) [10, 10, 9, 7, 4, 2, 0]
    [1, 2, 3, 6] [none, none, some 7, some 10]
    [some 2, some 4, some 7, some 10] (by decide)
    (by with_unfolding_all decide)

/-- The number of contestants in tier `i` under a boundary vector:
`bounds[i] - bounds[i-1]` (`bounds[i]` itself for tier 0). -/
def tier_count (bounds : List (Option ℤ)) (i : ℕ) : ℤ :=
  (bounds.getD i none).getD 0 -
    (if i = 0 then 0 else (bounds.getD (i - 1) none).getD 0)

lemma ratio_nums_some_no_zero (bounds : List (Option ℤ)) :
    ∀ (L : List ℕ) (nums : List ℤ),
      ratio_nums bounds L = .ok (some nums) →
      ∀ i ∈ L, tier_count bounds i ≠ 0 := by
  intro L
  induction L with
  | nil =>
    intro nums _ i hi
    simp at hi
  | cons j rest ih =>
    intro nums h i hi
    simp only [ratio_nums] at h
    rcases hbj : bounds.getD j none with _ | bj
    · rw [hbj] at h
      exact absurd h (by simp)
    · rw [hbj] at h
      rcases hbp : (if j = 0 then some (0 : ℤ) else bounds.getD (j - 1) none)
          with _ | bp
      · rw [hbp] at h
        exact absurd h (by simp)
      · rw [hbp] at h
        dsimp only at h
        have htc : tier_count bounds j = bj - bp := by
          unfold tier_count
          rw [hbj]
          by_cases hj0 : j = 0
          · rw [if_pos hj0]
            rw [if_pos hj0] at hbp
            have hbp0 : (0 : ℤ) = bp := Option.some.inj hbp
            simp [← hbp0]
          · rw [if_neg hj0]
            rw [if_neg hj0] at hbp
            rw [hbp]
            rfl
        by_cases hz : bj - bp = 0
        · rw [if_pos hz] at h
          exact absurd (Except.ok.inj h) (by simp)
        · rw [if_neg hz] at h
          rcases hrest : ratio_nums bounds rest with e | o
          · rw [hrest] at h
            exact absurd h (by simp)
          · rw [hrest] at h
            rcases o with _ | l
            · exact absurd (Except.ok.inj h) (by simp)
            · rcases List.mem_cons.mp hi with rfl | hi'
              · rw [htc]
                exact hz
              · exact ih l hrest i hi'

lemma ratio_nums_none_imp_zero (bounds : List (Option ℤ)) :
    ∀ (L : List ℕ), ratio_nums bounds L = .ok none →
      ∃ i ∈ L, tier_count bounds i = 0 := by
  intro L
  induction L with
  | nil =>
    intro h
    exact absurd (Except.ok.inj h) (by simp)
  | cons j rest ih =>
    intro h
    simp only [ratio_nums] at h
    rcases hbj : bounds.getD j none with _ | bj
    · rw [hbj] at h
      exact absurd h (by simp)
    · rw [hbj] at h
      rcases hbp : (if j = 0 then some (0 : ℤ) else bounds.getD (j - 1) none)
          with _ | bp
      · rw [hbp] at h
        exact absurd h (by simp)
      · rw [hbp] at h
        dsimp only at h
        have htc : tier_count bounds j = bj - bp := by
          unfold tier_count
          rw [hbj]
          by_cases hj0 : j = 0
          · rw [if_pos hj0]
            rw [if_pos hj0] at hbp
            have hbp0 : (0 : ℤ) = bp := Option.some.inj hbp
            simp [← hbp0]
          · rw [if_neg hj0]
            rw [if_neg hj0] at hbp
            rw [hbp]
            rfl
        by_cases hz : bj - bp = 0
        · exact ⟨j, by simp, by rw [htc]; exact hz⟩
        · rw [if_neg hz] at h
          rcases hrest : ratio_nums bounds rest with e | o
          · rw [hrest] at h
            exact absurd h (by simp)
          · rw [hrest] at h
            rcases o with _ | l
            · obtain ⟨i, hi, hiz⟩ := ih hrest
              exact ⟨i, List.mem_cons_of_mem _ hi, hiz⟩
            · exact absurd (Except.ok.inj h) (by simp)

/-- A successful `score_ratio` is either the zero-tier sentinel `(1, 0)`
(and some tier count is zero) or a regular score `(0, q)` (and every tier
count is non-zero). -/
lemma score_ratio_ok_cases (goal : List ℤ) (bounds : List (Option ℤ))
    (s : Lex (ℤ × ℚ)) (h : score_ratio goal bounds = .ok s) :
    (s = toLex (1, 0) ∧ ∃ i, i < goal.length - 1 ∧
      tier_count bounds i = 0) ∨
    ((∃ q, s = toLex (0, q)) ∧ ∀ i, i < goal.length - 1 →
      tier_count bounds i ≠ 0) := by
  simp only [score_ratio] at h
  rcases hrn : ratio_nums bounds (List.range (goal.length - 1)) with e | o
  · rw [hrn] at h
    exact absurd h (by simp)
  · rw [hrn] at h
    rcases o with _ | nums
    · dsimp only at h
      left
      refine ⟨(Except.ok.inj h).symm, ?_⟩
      obtain ⟨i, hi, hiz⟩ := ratio_nums_none_imp_zero bounds _ hrn
      exact ⟨i, List.mem_range.mp hi, hiz⟩
    · dsimp only at h
      right
      rcases hsum : score_ratio_sum goal nums (goal.length - 1) with e | q
      · rw [hsum] at h
        exact absurd h (by simp)
      · rw [hsum] at h
        refine ⟨⟨q, (Except.ok.inj h).symm⟩, ?_⟩
        intro i hi
        exact ratio_nums_some_no_zero bounds _ nums hrn i
          (List.mem_range.mpr hi)

/-- C7: for `MedalAlgorithmRatio`'s scoring function, an assignment with
an empty tier scores strictly worse (the sentinel `(1, 0)`) than any
assignment giving every tier at least one member; consequently, whenever
the explored search space contains an all-tiers-non-empty candidate, the
returned boundary vector has no empty tier. -/
theorem ratio_zero_count_domination (goal : List ℤ) :
    (∀ (bz bok : List (Option ℤ)) (sz sok : Lex (ℤ × ℚ)),
      score_ratio goal bz = .ok sz →
      (∃ i, i < goal.length - 1 ∧ tier_count bz i = 0) →
      score_ratio goal bok = .ok sok →
      (∀ i, i < goal.length - 1 → 1 ≤ tier_count bok i) →
      sok < sz) ∧
    (∀ (cum_stats : List ℤ) (kb ret : List (Option ℤ)),
      cum_stats.Pairwise (· ≥ ·) →
      score_compute_boundaries score_ratio cum_stats goal kb = .ok ret →
      (∃ b' ∈ all_cands cum_stats (kb.length - 3) kb,
        ∀ i, i < goal.length - 1 → 1 ≤ tier_count b' i) →
      ∀ i, i < goal.length - 1 → tier_count ret i ≠ 0) := by
  have hlt : ∀ q : ℚ, (toLex ((0 : ℤ), q) : Lex (ℤ × ℚ)) < toLex (1, 0) := by
    intro q
    rw [Prod.Lex.lt_iff]
    left
    norm_num
  constructor
  · intro bz bok sz sok hz hzero hok hpos
    rcases score_ratio_ok_cases goal bz sz hz with ⟨hsz, _⟩ | ⟨_, hnz⟩
    · rcases score_ratio_ok_cases goal bok sok hok with
        ⟨_, ⟨i, hi, hiz⟩⟩ | ⟨⟨q, hq⟩, _⟩
      · exact absurd hiz (by have := hpos i hi; omega)
      · rw [hsz, hq]
        exact hlt q
    · obtain ⟨i, hi, hiz⟩ := hzero
      exact absurd hiz (hnz i hi)
  · intro cum_stats kb ret hsorted hok hex
    simp only [score_compute_boundaries] at hok
    split_ifs at hok with h1 h2
    rcases hsr : search_by_score score_ratio cum_stats goal
        (kb.length - 3) kb with e | p
    · rw [hsr] at hok
      exact absurd hok (by simp)
    · obtain ⟨s, b⟩ := p
      rw [hsr] at hok
      dsimp only at hok
      obtain rfl := Except.ok.inj hok
      obtain ⟨hmem, hscore, hmin, _⟩ :=
        search_by_score_spec score_ratio cum_stats goal hsorted
          (kb.length - 3) kb s b hsr
      obtain ⟨b', hb', hb'pos⟩ := hex
      obtain ⟨s', hs', hss'⟩ := hmin b' hb'
      have hs'form : ∃ q, s' = toLex (0, q) := by
        rcases score_ratio_ok_cases goal b' s' hs' with
          ⟨_, ⟨i, hi, hiz⟩⟩ | ⟨hq, _⟩
        · exact absurd hiz (by have := hb'pos i hi; omega)
        · exact hq
      rcases score_ratio_ok_cases goal b s hscore with
        ⟨hs1, _⟩ | ⟨_, hnz⟩
      · obtain ⟨q, hq⟩ := hs'form
        rw [hs1, hq] at hss'
        exact absurd hss' (not_le.mpr (hlt q))
      · exact hnz

/-- Closed instance of C7: the zero-tier assignment `[2, 2, 7, 10]`
(silver tier empty) scores `(1, 0)`, strictly worse than `[2, 4, 7, 10]`'s
`(0, 7)`; and on the concrete search the returned vector has no empty
tier. -/
theorem ratio_zero_count_domination_witness :
    ((toLex ((0 : ℤ), (7 : ℚ)) : Lex (ℤ × ℚ)) < toLex (1, 0)) ∧
    (∀ i, i < ([1, 2, 3, 6] : List ℤ).length - 1 →
      tier_count [some 2, some 4, some 7, some 10] i ≠ 0) :=
  ⟨(ratio_zero_count_domination [1, 2, 3, 6]).1
      [some 2, some 2, some 7, some 10] [some 2, some 4, some 7, some 10]
      (toLex (1, 0)) (toLex (0, 7))
      (by with_unfolding_all decide) ⟨1, by decide, by decide⟩
      (by with_unfolding_all decide) (by decide),
    (ratio_zero_count_domination [1, 2, 3, 6]).2
      [10, 10, 9, 7, 4, 2, 0] [none, none, some 7, some 10]
      [some 2, some 4, some 7, some 10] (by decide)
      (by with_unfolding_all decide)
      ⟨[some 2, some 4, some 7, some 10],
        by with_unfolding_all decide, by decide⟩⟩

lemma get_cum_alternatives_ok_mem (ideal : ℚ) (cs : List ℤ) (nb na : ℤ)
    (h : get_cum_alternatives ideal cs = .ok (nb, na)) :
    na ∈ cs ∧ (nb ∈ cs ∨ nb = 0) := by
  have haux : getCumAltAux ideal cs.reverse 0 = some (nb, na) := by
    revert h
    unfold get_cum_alternatives
    rcases getCumAltAux ideal cs.reverse 0 with _ | p
    · intro h
      exact absurd h (by simp)
    · intro h
      have := Except.ok.inj h
      rw [this]
  obtain ⟨ham, _, hbor⟩ := getCumAltAux_eq_some ideal cs.reverse 0 nb na haux
  refine ⟨List.mem_reverse.mp ham, ?_⟩
  rcases hbor with ⟨hbm, _⟩ | hbe
  · exact Or.inl (List.mem_reverse.mp hbm)
  · exact Or.inr hbe

/-- Inversion of a successful margin computation. -/
lemma margin_compute_ok_inv (cf : ℚ → ℚ → Bool) (cum_stats goal : List ℤ)
    (kb ret : List (Option ℤ))
    (h : margin_compute_boundaries cf cum_stats goal kb = .ok ret) :
    ∃ nc cs' nb na, cum_stats = nc :: cs' ∧ kb.length = goal.length ∧
      2 ≤ goal.length ∧ goal.sum ≠ 0 ∧
      get_cum_alternatives (margin_goal_ideal goal nc) (nc :: cs') =
        .ok (nb, na) ∧
      ret = margin_ret goal nc
        (if cf (margin_goal_ideal goal nc - (nb : ℚ))
            ((na : ℚ) - margin_goal_ideal goal nc) then na else nb) := by
  simp only [margin_compute_boundaries] at h
  by_cases hlen : kb.length ≠ goal.length
  · rw [if_pos hlen] at h
    exact absurd h (by simp)
  · rw [if_neg hlen] at h
    rcases cum_stats with _ | ⟨nc, cs'⟩
    · exact absurd h (by simp)
    · rcases hgl : goal.getLast? with _ | gl
      · rw [hgl] at h
        exact absurd h (by simp)
      · rw [hgl] at h
        dsimp only at h
        by_cases hsum : goal.sum = 0
        · rw [if_pos hsum] at h
          exact absurd h (by simp)
        · rw [if_neg hsum] at h
          have hideal : margin_goal_ideal goal nc =
              (nc : ℚ) * (((goal.sum - gl : ℤ) : ℚ) /
                ((goal.sum : ℤ) : ℚ)) := by
            simp [margin_goal_ideal, hgl]
          rcases hbr : get_cum_alternatives
              ((nc : ℚ) * (((goal.sum - gl : ℤ) : ℚ) /
                ((goal.sum : ℤ) : ℚ)))
              (nc :: cs') with e | p
          · rw [hbr] at h
            exact absurd h (by simp)
          · obtain ⟨nb, na⟩ := p
            rw [hbr] at h
            dsimp only at h
            by_cases hl2 : goal.length < 2
            · rw [if_pos hl2] at h
              exact absurd h (by simp)
            · rw [if_neg hl2] at h
              refine ⟨nc, cs', nb, na, rfl, not_ne_iff.mp hlen, by omega,
                hsum, by rw [hideal]; exact hbr, ?_⟩
              rw [hideal]
              exact (Except.ok.inj h).symm

lemma independent_choice_mem (cum_stats goal : List ℤ) (gsm : ℤ)
    (nm? : Option ℤ) (v : ℤ) (i : ℕ)
    (h : independent_choice cum_stats goal gsm nm? i = .ok v) :
    v ∈ cum_stats ∨ v = 0 := by
  rcases nm? with _ | nm
  · exfalso
    simp only [independent_choice] at h
    split_ifs at h <;> exact absurd h (by simp)
  · obtain ⟨_, nb, na, hbr, hveq⟩ :=
      independent_choice_ok cum_stats goal gsm nm v i h
    obtain ⟨hna, hnb⟩ := get_cum_alternatives_ok_mem _ _ nb na hbr
    rw [hveq]
    split_ifs
    · exact Or.inl hna
    · exact hnb

lemma lowest_first_choice_mem (cum_stats goal : List ℤ) (i : ℕ)
    (prev? : Option ℤ) (v : ℤ)
    (h : lowest_first_choice cum_stats goal i prev? = .ok v) :
    v ∈ cum_stats ∨ v = 0 := by
  rcases prev? with _ | prev
  · exact absurd h (lowest_first_choice_none_ne_ok cum_stats goal i v)
  · obtain ⟨_, nb, na, hbr, hveq⟩ :=
      lowest_first_choice_ok cum_stats goal i prev v h
    obtain ⟨hna, hnb⟩ := get_cum_alternatives_ok_mem _ _ nb na hbr
    rw [hveq]
    split_ifs
    · exact Or.inl hna
    · exact hnb

/-- C8 counterexample: on `cum_stats = [4]`, `goal = [1, 1]` with
`MarginAlgorithmLinear(1, 1, strict)`, the bracket below the ideal `2` is
the initial accumulator `0`, which does not occur in `cum_stats`; the
returned vector resolves position 0 to `0 ∉ cum_stats`. -/
theorem global_invariant_counterexample :
    margin_compute_boundaries (choose_linear 1 1 true) [4] [1, 1]
      [none, none] = .ok [some 0, some 4] ∧
    ([some 0, some 4] : List (Option ℤ)).getD 0 none = some 0 ∧
    (0 : ℤ) ∉ ([4] : List ℤ) := by
  refine ⟨?_, by decide, by decide⟩
  with_unfolding_all decide

/-- C8 amended: for every algorithm variant, on inputs where the
computation succeeds (and, for the tier algorithms, where every resolved
entry of the input `known_boundaries` is a value of `cum_stats` or `0`),
the returned vector has the length of `goal`, its last position holds the
total contestant count (set afresh by the margin algorithms, passed
through unchanged from the input by the tier algorithms), and every
resolved position holds a value occurring in `cum_stats` **or the value
0** (the bracket-below fallback when the ideal undercuts every achievable
count). -/
theorem global_result_invariant :
    (∀ (cf : ℚ → ℚ → Bool) (nc : ℤ) (cs' goal : List ℤ)
      (kb ret : List (Option ℤ)),
      margin_compute_boundaries cf (nc :: cs') goal kb = .ok ret →
      ret.length = goal.length ∧
      ret.getD (goal.length - 1) none = some nc ∧
      (∀ j v, ret.getD j none = some v → v ∈ (nc :: cs') ∨ v = 0)) ∧
    (∀ (cum_stats goal : List ℤ) (kb ret : List (Option ℤ)),
      independent_compute_boundaries cum_stats goal kb = .ok ret →
      (∀ j v, kb.getD j none = some v → v ∈ cum_stats ∨ v = 0) →
      ret.length = goal.length ∧
      ret.getD (goal.length - 1) none = kb.getD (goal.length - 1) none ∧
      (∀ j v, ret.getD j none = some v → v ∈ cum_stats ∨ v = 0)) ∧
    (∀ (cum_stats goal : List ℤ) (kb ret : List (Option ℤ)),
      2 ≤ goal.length →
      lowest_first_compute_boundaries cum_stats goal kb = .ok ret →
      (∀ j v, kb.getD j none = some v → v ∈ cum_stats ∨ v = 0) →
      ret.length = goal.length ∧
      ret.getD (goal.length - 1) none = kb.getD (goal.length - 1) none ∧
      (∀ j v, ret.getD j none = some v → v ∈ cum_stats ∨ v = 0)) ∧
    (∀ (σ : Type) (inst : LinearOrder σ)
      (sfn : List ℤ → List (Option ℤ) → Except AlgError σ)
      (cum_stats goal : List ℤ) (kb ret : List (Option ℤ)),
      cum_stats.Pairwise (· ≥ ·) →
      score_compute_boundaries sfn cum_stats goal kb = .ok ret →
      (∀ j v, kb.getD j none = some v → v ∈ cum_stats ∨ v = 0) →
      ret.length = goal.length ∧
      ret.getD (goal.length - 1) none = kb.getD (goal.length - 1) none ∧
      (∀ j v, ret.getD j none = some v → v ∈ cum_stats ∨ v = 0)) := by
  refine ⟨?_, ?_, ?_, ?_⟩
  · -- margin algorithms
    intro cf nc cs' goal kb ret h
    obtain ⟨nc', cs'', nb, na, hcs, hlen, hglen, hsum, hbr, hret⟩ :=
      margin_compute_ok_inv cf (nc :: cs') goal kb ret h
    obtain ⟨hnc, hcs'⟩ : nc = nc' ∧ cs' = cs'' :=
      ⟨(List.cons.inj hcs).1, (List.cons.inj hcs).2⟩
    subst hnc
    subst hcs'
    obtain ⟨hna, hnb⟩ := get_cum_alternatives_ok_mem _ _ nb na hbr
    subst hret
    refine ⟨margin_ret_length goal nc _, margin_ret_getD_last goal nc _
      hglen, ?_⟩
    intro j v hv
    by_cases hj1 : j = goal.length - 1
    · subst hj1
      rw [margin_ret_getD_last goal nc _ hglen] at hv
      have : nc = v := Option.some.inj hv
      subst this
      exact Or.inl (by simp)
    · by_cases hj2 : j = goal.length - 2
      · subst hj2
        rw [margin_ret_getD_medal goal nc _ hglen] at hv
        have hvv := Option.some.inj hv
        rw [← hvv]
        split_ifs
        · exact Or.inl hna
        · exact hnb
      · rw [margin_ret_getD_other goal nc _ j hj2 hj1] at hv
        exact absurd hv (by simp)
  · -- MedalAlgorithmIndependent
    intro cum_stats goal kb ret h hkb
    simp only [independent_compute_boundaries] at h
    by_cases hlen : kb.length ≠ goal.length
    · rw [if_pos hlen] at h
      exact absurd h (by simp)
    · rw [if_neg hlen] at h
      by_cases hl2 : goal.length < 2
      · rw [if_pos hl2] at h
        exact absurd h (by simp)
      · rw [if_neg hl2] at h
        have hlen' : kb.length = goal.length := not_ne_iff.mp hlen
        obtain ⟨hlenr, hframe, hvals⟩ :=
          run_steps_oblivious _ _ (fun r i => rfl) _ kb ret
            (List.nodup_range _) h
        rw [hlen'] at hlenr
        refine ⟨hlenr, ?_, ?_⟩
        · rw [hframe (goal.length - 1) (by simp; omega)]
        · intro j v hv
          by_cases hj : j ∈ List.range (goal.length - 2)
          · have hjlt : j < kb.length := by
              rw [hlen']
              have := List.mem_range.mp hj
              omega
            obtain ⟨v', hv', hretj⟩ := hvals j hj hjlt
            rw [hretj] at hv
            have : v' = v := Option.some.inj hv
            subst this
            exact independent_choice_mem _ _ _ _ _ _ hv'
          · rw [hframe j hj] at hv
            exact hkb j v hv
  · -- MedalAlgorithmLowestFirst
    intro cum_stats goal kb ret hglen h hkb
    simp only [lowest_first_compute_boundaries] at h
    by_cases hlen : kb.length ≠ goal.length
    · rw [if_pos hlen] at h
      exact absurd h (by simp)
    · rw [if_neg hlen] at h
      have hlen' : kb.length = goal.length := not_ne_iff.mp hlen
      obtain ⟨hlenr, hframe, hvals⟩ :=
        run_steps_lowest_first cum_stats goal (goal.length - 2) kb ret
          (by omega) h
      rw [hlen'] at hlenr
      refine ⟨hlenr, ?_, ?_⟩
      · rw [hframe (goal.length - 1) (by omega)]
      · intro j v hv
        by_cases hj : j < goal.length - 2
        · obtain ⟨prev, v', hprev, hchoice, hretj⟩ := hvals j hj
          rw [hretj] at hv
          have : v' = v := Option.some.inj hv
          subst this
          exact lowest_first_choice_mem _ _ _ _ _ hchoice
        · rw [hframe j (by omega)] at hv
          exact hkb j v hv
  · -- MedalAlgorithmScore variants
    intro σ inst sfn cum_stats goal kb ret hsorted h hkb
    simp only [score_compute_boundaries] at h
    by_cases hlen : kb.length ≠ goal.length
    · rw [if_pos hlen] at h
      exact absurd h (by simp)
    · rw [if_neg hlen] at h
      by_cases hl3 : kb.length < 3
      · rw [if_pos hl3] at h
        exact absurd h (by simp)
      · rw [if_neg hl3] at h
        have hlen' : kb.length = goal.length := not_ne_iff.mp hlen
        rcases hsr : search_by_score sfn cum_stats goal (kb.length - 3) kb
            with e | p
        · rw [hsr] at h
          exact absurd h (by simp)
        · obtain ⟨s, b⟩ := p
          rw [hsr] at h
          dsimp only at h
          obtain rfl := Except.ok.inj h
          obtain ⟨hmem, _, _, _⟩ :=
            search_by_score_spec sfn cum_stats goal hsorted
              (kb.length - 3) kb s b hsr
          obtain ⟨hblen, hbframe, hbvals⟩ :=
            all_cands_mem_spec cum_stats (kb.length - 3) kb b hmem
          refine ⟨by rw [hblen, hlen'], ?_, ?_⟩
          · rw [← hlen']
            exact hbframe (kb.length - 1) (by omega)
          · intro j v hv
            rcases hbvals j v hv with hkv | hcs
            · exact hkb j v hkv
            · exact Or.inl hcs

/-- Closed instance of the amended C8 (margin part, spec scenario). -/
theorem global_result_invariant_witness :
    ([none, none, some 4, some 10] : List (Option ℤ)).length =
      ([1, 2, 3, 6] : List ℤ).length ∧
    ([none, none, some 4, some 10] : List (Option ℤ)).getD
      (([1, 2, 3, 6] : List ℤ).length - 1) none = some 10 ∧
    (∀ j v, ([none, none, some 4, some 10] : List (Option ℤ)).getD j none =
      some v → v ∈ ((10 : ℤ) :: [10, 9, 7, 4, 2, 0]) ∨ v = 0) :=
  global_result_invariant.1 (choose_linear 1 1 false) 10
    [10, 9, 7, 4, 2, 0] [1, 2, 3, 6] [none, none, none, none]
    [none, none, some 4, some 10] (by with_unfolding_all decide)

end Medalbound

